import Mathlib

/-!
# toost utilities (`utils.h`): indexed permutations

A shallow embedding of the arithmetic helpers `strong` and `tenpower`, the range
helpers `sequence` and `series`, the generator `seqgenerator` and the two
permutation classes `permutation<T>` and `permutationidx<C>`.

Conventions of the embedding:

* `size_t` is a 64-bit unsigned integer.  Values are natural numbers and every
  operation that can wrap is written with an explicit `% SIZE_T_MOD`.
* `std::set<T>` is represented by the list of its elements in iteration order
  (strictly ascending); `std::vector<T>` and the container `C` are lists.
* `assert`, division by zero and out-of-range element access are explicit
  faults: fallible code returns `Except Fault _`.
* The random engine is replaced by the value it draws: `get_rand` takes the
  drawn number as an argument.
-/

set_option autoImplicit false

namespace toost

/-! ## Faults and machine integers -/

/-- Reasons for which an execution stops without returning a value. -/
inductive Fault where
  /-- An `assert(...)` whose condition is false. -/
  | assertion
  /-- Operator `%` or `/` with a zero right operand. -/
  | div_by_zero
  /-- Access to an element outside a vector / container. -/
  | out_of_range
  deriving DecidableEq, Repr

/-- Number of values of the type `size_t`. -/
def SIZE_T_MOD : Nat := 2 ^ 64

/-! ## `strong` (factorial) -/

/-- Function `strong<T>(n)` for an unbounded integral `T` and `n >= 0`
(the assertion `n >= 0` holds): `return n > 1 ? strong(n-1)*n : 1;`. -/
def strong : Nat → Nat
  | 0 => 1
  | n + 1 => if n + 1 > 1 then strong n * (n + 1) else 1

/-- Function `strong<size_t>(n)`: the same recursion, the product taken in
`size_t`, i.e. modulo `2^64`. -/
def strong_size_t : Nat → Nat
  | 0 => 1
  | n + 1 => if n + 1 > 1 then (strong_size_t n * (n + 1)) % SIZE_T_MOD else 1

/-! ## `sequence` and `seqgenerator` -/

/-- The range-based `for` over a `sequence`: starting from iterator position
`pos`, while `pos != tail` yield `pos` and increment it. -/
def sequence_iter : Nat → Nat → Nat → List Nat
  | 0, _, _ => []
  | fuel + 1, pos, tail =>
    if pos != tail then pos :: sequence_iter fuel (pos + 1) tail else []

/-- Values visited by `for (auto k : sequence(tail))` for an unsigned `tail`
(`head` is `0`, so the constructor assertion `tail >= head` holds). -/
def sequence (tail : Nat) : List Nat := sequence_iter tail 0 tail

/-- One call of `seqgenerator<int>::operator()`: returns the current value and
steps the stored one (`return n++;`).  State and value are paired.  The values
are `int`s counting up from `0` to the container size; `get_n` generates them
only after its range assertion passed, which needs a non-zero `capacity()` and
so fewer than 66 elements: the `int` never overflows. -/
def seqgenerator.call (n : Nat) : Nat × Nat := (n, n + 1)

/-- Call `std::generate_n(back_inserter(base), count, gen)`: `count` successive
calls of the generator whose stored value is `start`, appended to `base`. -/
def generate_n : List Nat → Nat → Nat → List Nat
  | base, 0, _ => base
  | base, count + 1, start =>
    generate_n (base ++ [(seqgenerator.call start).1]) count (seqgenerator.call start).2

/-! ## The decode loop -/

/-- Local variables of `get_n` that change in the loop: the index `n`, the
working vector `base` and the vector under construction. -/
structure LoopState (B R : Type) where
  n : Nat
  base : List B
  result : List R

/-! ## `permutation<T>` -/

/-- Class `permutation<T>`: the member `s` (a `std::set<T>`), as the list of its
elements in iteration order. -/
structure permutation (T : Type) where
  s : List T

namespace permutation

variable {T : Type}

/-- Method `capacity()`: `return strong(s.size());` with `size_t` arithmetic. -/
def capacity (p : permutation T) : Nat := strong_size_t p.s.length

/-- Upper bound given to `std::uniform_int_distribution<size_t> dist {0, capacity()-1}`,
the subtraction being a `size_t` subtraction. -/
def dist_max (p : permutation T) : Nat := (p.capacity + SIZE_T_MOD - 1) % SIZE_T_MOD

/-- Body of the `for` loop of `get_n`:
`it = base.begin() + n%base.size(); result.push_back(*it); n /= base.size(); base.erase(it);` -/
def loop_body (st : LoopState T T) : Except Fault (LoopState T T) :=
  if st.base.length = 0 then .error .div_by_zero
  else
    match st.base[st.n % st.base.length]? with
    | none => .error .out_of_range
    | some x =>
      .ok ⟨st.n / st.base.length, st.base.eraseIdx (st.n % st.base.length), st.result ++ [x]⟩

/-- Statement after the loop: `result.push_back(base[n%base.size()]); return result;` -/
def last_push (st : LoopState T T) : Except Fault (List T) :=
  if st.base.length = 0 then .error .div_by_zero
  else
    match st.base[st.n % st.base.length]? with
    | none => .error .out_of_range
    | some x => .ok (st.result ++ [x])

/-- Method `get_n(size_t n)`.  The assertions `s.size() >= 0` and `n >= 0` hold
for unsigned values; `assert(n < capacity())` is the range check. -/
def get_n (p : permutation T) (n : Nat) : Except Fault (List T) :=
  if ¬ (n < p.capacity) then .error .assertion
  else if p.s.isEmpty then .ok []
  else do
    let st ← (sequence (p.s.length - 1)).foldlM (fun st _ => loop_body st)
      (⟨n, p.s, []⟩ : LoopState T T)
    last_push st

/-- Method `get_rand()`: `return get_n(dist(gen));` where `k` is the value drawn
by `dist(gen)`. -/
def get_rand (p : permutation T) (k : Nat) : Except Fault (List T) := p.get_n k

end permutation

/-! ## `permutationidx<C>` -/

/-- Class `permutationidx<C>`: the member `container`, a sequence container of
values of type `T`. -/
structure permutationidx (T : Type) where
  container : List T

namespace permutationidx

variable {T : Type}

/-- Method `capacity()`: `return strong(container.size());` with `size_t` arithmetic. -/
def capacity (p : permutationidx T) : Nat := strong_size_t p.container.length

/-- Upper bound given to `dist {0, capacity()-1}` (a `size_t` subtraction). -/
def dist_max (p : permutationidx T) : Nat := (p.capacity + SIZE_T_MOD - 1) % SIZE_T_MOD

/-- Body of the `for` loop of `get_n`:
`it = base.begin() + n%base.size(); resultcontainer.push_back(container[*it]);
n /= base.size(); base.erase(it);` -/
def loop_body (container : List T) (st : LoopState Nat T) : Except Fault (LoopState Nat T) :=
  if st.base.length = 0 then .error .div_by_zero
  else
    match st.base[st.n % st.base.length]? with
    | none => .error .out_of_range
    | some i =>
      match container[i]? with
      | none => .error .out_of_range
      | some x =>
        .ok ⟨st.n / st.base.length, st.base.eraseIdx (st.n % st.base.length), st.result ++ [x]⟩

/-- Statement after the loop:
`resultcontainer.push_back(container[base[n%base.size()]]); return resultcontainer;` -/
def last_push (container : List T) (st : LoopState Nat T) : Except Fault (List T) :=
  if st.base.length = 0 then .error .div_by_zero
  else
    match st.base[st.n % st.base.length]? with
    | none => .error .out_of_range
    | some i =>
      match container[i]? with
      | none => .error .out_of_range
      | some x => .ok (st.result ++ [x])

/-- Method `get_n(size_t n)`: the working vector `base` holds the positions
`0 .. container.size()-1` produced by `generate_n` with `seqgenerator<int> {0}`. -/
def get_n (p : permutationidx T) (n : Nat) : Except Fault (List T) :=
  if ¬ (n < p.capacity) then .error .assertion
  else if p.container.isEmpty then .ok []
  else do
    let base := generate_n [] p.container.length 0
    let st ← (sequence (base.length - 1)).foldlM (fun st _ => loop_body p.container st)
      (⟨n, base, []⟩ : LoopState Nat T)
    last_push p.container st

/-- Method `get_rand()`: `return get_n(dist(gen));` where `k` is the value drawn. -/
def get_rand (p : permutationidx T) (k : Nat) : Except Fault (List T) := p.get_n k

end permutationidx

/-! ## `get_n` with assertions compiled out, and its loop after some turns -/

/-- Method `permutation::get_n` as compiled with `NDEBUG`: the three `assert`
lines expand to nothing, the rest of the body is unchanged. -/
def permutation.get_n_NDEBUG {T : Type} (p : permutation T) (n : Nat) : Except Fault (List T) :=
  if p.s.isEmpty then .ok []
  else do
    let st ← (sequence (p.s.length - 1)).foldlM (fun st _ => permutation.loop_body st)
      (⟨n, p.s, []⟩ : LoopState T T)
    permutation.last_push st

/-- Method `permutationidx::get_n` as compiled with `NDEBUG`. -/
def permutationidx.get_n_NDEBUG {T : Type} (p : permutationidx T) (n : Nat) :
    Except Fault (List T) :=
  if p.container.isEmpty then .ok []
  else do
    let base := generate_n [] p.container.length 0
    let st ← (sequence (base.length - 1)).foldlM (fun st _ => permutationidx.loop_body p.container st)
      (⟨n, base, []⟩ : LoopState Nat T)
    permutationidx.last_push p.container st

/-- Local variables of `permutation::get_n` after the first `k` turns of its
`for` loop, entered with index `n` and working vector `base`. -/
def permutation.loop_turns {T : Type} (base : List T) (n k : Nat) :
    Except Fault (LoopState T T) :=
  ((sequence (base.length - 1)).take k).foldlM (fun st _ => permutation.loop_body st)
    (⟨n, base, []⟩ : LoopState T T)

/-- Local variables of `permutationidx::get_n` after the first `k` turns of its
`for` loop, entered with index `n`; the working vector is the one the method
generates. -/
def permutationidx.loop_turns {T : Type} (container : List T) (n k : Nat) :
    Except Fault (LoopState Nat T) :=
  ((sequence ((generate_n [] container.length 0).length - 1)).take k).foldlM
    (fun st _ => permutationidx.loop_body container st)
    (⟨n, generate_n [] container.length 0, []⟩ : LoopState Nat T)

/-! ## Integral types, `sequence<T>` and `series<T>` -/

/-- An integral type `T`: its least value and the number of its values
(`unsigned char` is `0, 256`; `int` is `-2^31, 2^32`). -/
structure IntegralType where
  lo : Int
  card : Nat

/-- Greatest value of the type. -/
def IntegralType.hi (τ : IntegralType) : Int := τ.lo + τ.card - 1

/-- Statement `pos++` on a value of the type: the successor, and from the greatest
value the least one.  The wrap is the language rule for unsigned types (and the
conversion rule for signed types narrower than `int`); for `int` and wider signed
types the increment of the greatest value is undefined, and nothing below
evaluates the model there. -/
def IntegralType.incr (τ : IntegralType) (x : Int) : Int :=
  if x < τ.hi then x + 1 else τ.lo

/-- Type `unsigned char`. -/
def unsigned_char : IntegralType := ⟨0, 256⟩

/-- Type `int` (32 bits). -/
def int_type : IntegralType := ⟨-2147483648, 4294967296⟩

/-- Type `size_t`. -/
def size_t_type : IntegralType := ⟨0, SIZE_T_MOD⟩

/-- Range-based `for` over a pair of `sequence_iterator`s / `series_iterator`s:
`for (it = begin; it != end; ++it) visit(*it)`, where `operator!=` compares the
positions, `operator*` returns the position and `operator++` is `pos++`.  The
result is the list of visited values, or `none` when `fuel` turns did not reach
the end of the loop. -/
def range_for (τ : IntegralType) : Nat → Int → Int → Option (List Int)
  | 0, _, _ => none
  | fuel + 1, pos, last =>
    if pos != last then (range_for τ fuel (τ.incr pos) last).map (List.cons pos)
    else some []

/-- Loop `for (auto i : sequence<T>(tail))`: the constructor sets `head` to `T{}`,
that is `0`, and asserts `tail >= head`; `begin()` is at `head`, `end()` at
`tail`. -/
def sequence_for (τ : IntegralType) (fuel : Nat) (tail : Int) :
    Except Fault (Option (List Int)) :=
  if tail ≥ 0 then .ok (range_for τ fuel 0 tail) else .error .assertion

/-- Loop `for (auto i : series<T>(f, l))`: the constructor asserts `first <= last`;
`begin()` is at `first`, `end()` is `++(series_iterator<T>(last))`. -/
def series_for (τ : IntegralType) (fuel : Nat) (f l : Int) :
    Except Fault (Option (List Int)) :=
  if f ≤ l then .ok (range_for τ fuel f (τ.incr l)) else .error .assertion

/-! ## `tenpower` -/

/-- Recursion of `tenpower<T>(n)` on an argument `n >= 0`, over exact integers:
`if(n>1) return tenpower(n-1)*10; else if(n==1) return 10; else return 1;`
(the assertion of the recursive call holds, since it is reached with `n > 1`). -/
def tenpower_rec : Nat → Int
  | 0 => 1
  | n + 1 => if n + 1 > 1 then tenpower_rec n * 10 else if n + 1 = 1 then 10 else 1

/-- Function `tenpower<T>(n)` for a signed integral `T`, over exact integers:
`assert (n>=0);` then the recursion. -/
def tenpower (n : Int) : Except Fault Int :=
  if n ≥ 0 then .ok (tenpower_rec n.toNat) else .error .assertion

/-! ## Specification-side functions -/

/-- Factorial-number-system decoding written as a recursion on the number of
elements still to place: take the element at position `n % size`, continue with
the quotient on the list without it. -/
def decodeAux {T : Type} : Nat → List T → Nat → List T
  | 0, _, _ => []
  | k + 1, base, n =>
    match base[n % base.length]? with
    | none => []
    | some x => x :: decodeAux k (base.eraseIdx (n % base.length)) (n / base.length)

/-- Decoding of index `n` over the whole working list. -/
def decode {T : Type} (base : List T) (n : Nat) : List T := decodeAux base.length base n

/-- Loop body with the element lookup abstracted: `f` maps an entry of the
working vector to the value pushed on the result. -/
def bodyG {B R : Type} (f : B → Option R) (st : LoopState B R) : Except Fault (LoopState B R) :=
  if st.base.length = 0 then .error .div_by_zero
  else
    match st.base[st.n % st.base.length]? with
    | none => .error .out_of_range
    | some b =>
      match f b with
      | none => .error .out_of_range
      | some x =>
        .ok ⟨st.n / st.base.length, st.base.eraseIdx (st.n % st.base.length), st.result ++ [x]⟩

/-- Final push with the element lookup abstracted. -/
def lastG {B R : Type} (f : B → Option R) (st : LoopState B R) : Except Fault (List R) :=
  if st.base.length = 0 then .error .div_by_zero
  else
    match st.base[st.n % st.base.length]? with
    | none => .error .out_of_range
    | some b =>
      match f b with
      | none => .error .out_of_range
      | some x => .ok (st.result ++ [x])

/-! ## Arithmetic facts -/

theorem strong_succ (n : Nat) : strong (n + 1) = strong n * (n + 1) := by
  cases n with
  | zero => rfl
  | succ m => simp [strong]

theorem strong_eq_factorial (n : Nat) : strong n = n.factorial := by
  induction n with
  | zero => rfl
  | succ m ih => rw [strong_succ, ih, Nat.factorial_succ, Nat.mul_comm]

theorem strong_size_t_succ (n : Nat) :
    strong_size_t (n + 1) = (strong_size_t n * (n + 1)) % SIZE_T_MOD := by
  cases n with
  | zero => simp [strong_size_t, SIZE_T_MOD]
  | succ m => simp [strong_size_t]

theorem strong_size_t_eq_mod (n : Nat) : strong_size_t n = n.factorial % SIZE_T_MOD := by
  induction n with
  | zero => simp [strong_size_t, SIZE_T_MOD]
  | succ m ih =>
    rw [strong_size_t_succ, ih, Nat.factorial_succ, Nat.mod_mul_mod, Nat.mul_comm]

theorem strong_size_t_lt (n : Nat) : strong_size_t n < SIZE_T_MOD := by
  rw [strong_size_t_eq_mod]
  exact Nat.mod_lt _ (by simp [SIZE_T_MOD])

theorem strong_size_t_le_factorial (n : Nat) : strong_size_t n ≤ n.factorial := by
  rw [strong_size_t_eq_mod]
  exact Nat.mod_le _ _

theorem factorial_twenty_lt : Nat.factorial 20 < SIZE_T_MOD := by
  simp [Nat.factorial, SIZE_T_MOD]

theorem strong_size_t_of_le_twenty (n : Nat) (h : n ≤ 20) :
    strong_size_t n = n.factorial := by
  rw [strong_size_t_eq_mod]
  exact Nat.mod_eq_of_lt (lt_of_le_of_lt (Nat.factorial_le h) factorial_twenty_lt)

/-! ## The helpers `sequence` and `generate_n` -/

theorem sequence_iter_eq (fuel pos : Nat) :
    sequence_iter fuel pos (pos + fuel) = List.range' pos fuel := by
  induction fuel generalizing pos with
  | zero => rfl
  | succ f ih =>
    have hne : pos ≠ pos + (f + 1) := by omega
    have h := ih (pos + 1)
    rw [show pos + 1 + f = pos + (f + 1) by omega] at h
    simp [sequence_iter, hne, h, List.range'_succ]

theorem sequence_eq_range (tail : Nat) : sequence tail = List.range tail := by
  have h := sequence_iter_eq tail 0
  rw [Nat.zero_add] at h
  rw [sequence, h, List.range_eq_range']

theorem sequence_length (tail : Nat) : (sequence tail).length = tail := by
  rw [sequence_eq_range, List.length_range]

theorem generate_n_eq (base : List Nat) (count start : Nat) :
    generate_n base count start = base ++ List.range' start count := by
  induction count generalizing base start with
  | zero => simp [generate_n]
  | succ c ih => simp [generate_n, ih, seqgenerator.call, List.range'_succ]

theorem generate_n_range (count : Nat) : generate_n [] count 0 = List.range count := by
  rw [generate_n_eq, List.nil_append, List.range_eq_range']

/-! ## The loops compute `decodeAux` -/

theorem permutation_loop_body_eq {T : Type} :
    (permutation.loop_body : LoopState T T → _) = bodyG some := by
  funext st
  unfold permutation.loop_body bodyG
  split
  · rfl
  · cases st.base[st.n % st.base.length]? <;> rfl

theorem permutation_last_push_eq {T : Type} :
    (permutation.last_push : LoopState T T → _) = lastG some := by
  funext st
  unfold permutation.last_push lastG
  split
  · rfl
  · cases st.base[st.n % st.base.length]? <;> rfl

theorem permutationidx_loop_body_eq {T : Type} (cs : List T) :
    permutationidx.loop_body cs = bodyG (fun i => cs[i]?) := by
  funext st
  unfold permutationidx.loop_body bodyG
  split
  · rfl
  · cases st.base[st.n % st.base.length]? with
    | none => rfl
    | some i => dsimp only

theorem permutationidx_last_push_eq {T : Type} (cs : List T) :
    permutationidx.last_push cs = lastG (fun i => cs[i]?) := by
  funext st
  unfold permutationidx.last_push lastG
  split
  · rfl
  · cases st.base[st.n % st.base.length]? with
    | none => rfl
    | some i => dsimp only

theorem loopG_spec {B R : Type} (f : B → Option R) (ks : List Nat) :
    ∀ st : LoopState B R, st.base.length = ks.length + 1 →
      (∀ b ∈ st.base, ∃ r, f b = some r) →
      ∃ out : List R,
        (ks.foldlM (fun st _ => bodyG f st) st >>= lastG f) = .ok (st.result ++ out) ∧
        out.map some = (decodeAux (ks.length + 1) st.base st.n).map f := by
  induction ks with
  | nil =>
    intro st hlen hf
    have hpos : st.n % st.base.length < st.base.length := Nat.mod_lt _ (by omega)
    obtain ⟨r, hr⟩ := hf _ (List.getElem_mem hpos)
    refine ⟨[r], ?_, ?_⟩
    · have hne : ¬ st.base.length = 0 := by omega
      simp only [List.foldlM, pure_bind, lastG, hne, if_false, List.getElem?_eq_getElem hpos, hr]
    · simp [decodeAux, List.getElem?_eq_getElem hpos, hr]
  | cons k ks ih =>
    intro st hlen hf
    have hne : ¬ st.base.length = 0 := by simp at hlen; omega
    have hpos : st.n % st.base.length < st.base.length := Nat.mod_lt _ (by omega)
    obtain ⟨r, hr⟩ := hf _ (List.getElem_mem hpos)
    have hlen' : (st.base.eraseIdx (st.n % st.base.length)).length = ks.length + 1 := by
      rw [List.length_eraseIdx_of_lt hpos, hlen]; simp
    have hf' : ∀ b ∈ st.base.eraseIdx (st.n % st.base.length), ∃ r, f b = some r :=
      fun b hb => hf b (List.mem_of_mem_eraseIdx hb)
    obtain ⟨out, h1, h2⟩ := ih
      ⟨st.n / st.base.length, st.base.eraseIdx (st.n % st.base.length), st.result ++ [r]⟩
      hlen' hf'
    refine ⟨r :: out, ?_, ?_⟩
    · have hb : bodyG f st = .ok
          ⟨st.n / st.base.length, st.base.eraseIdx (st.n % st.base.length), st.result ++ [r]⟩ := by
        simp only [bodyG, hne, if_false, List.getElem?_eq_getElem hpos, hr]
      rw [List.foldlM_cons, hb]
      simp only [List.append_assoc, List.singleton_append] at h1
      exact h1
    · simp only [List.length_cons]
      rw [decodeAux, List.getElem?_eq_getElem hpos]
      simp only [List.map_cons, hr, h2]

/-! ## `get_n` in closed form -/

theorem permutation_get_n_fail {T : Type} (p : permutation T) (n : Nat)
    (h : ¬ n < p.capacity) : p.get_n n = .error .assertion := by
  simp [permutation.get_n, h]

theorem permutation_get_n_ok {T : Type} (p : permutation T) (n : Nat)
    (h : n < p.capacity) : p.get_n n = .ok (decode p.s n) := by
  unfold permutation.get_n
  rw [if_neg (not_not.mpr h)]
  cases hs : p.s with
  | nil => simp [decode, decodeAux]
  | cons a l =>
    rw [if_neg (by simp)]
    obtain ⟨out, h1, h2⟩ := loopG_spec (some : T → Option T) (sequence ((a :: l).length - 1))
      ⟨n, a :: l, []⟩ (by simp [sequence_length]) (fun b _ => ⟨b, rfl⟩)
    rw [permutation_loop_body_eq, permutation_last_push_eq]
    rw [show (do
          let st ← (sequence ((a :: l).length - 1)).foldlM (fun st _ => bodyG some st)
            (⟨n, a :: l, []⟩ : LoopState T T)
          lastG some st) =
        ((sequence ((a :: l).length - 1)).foldlM (fun st _ => bodyG some st)
            (⟨n, a :: l, []⟩ : LoopState T T) >>= lastG some) from rfl, h1]
    have h3 : out = decodeAux ((sequence ((a :: l).length - 1)).length + 1) (a :: l) n :=
      (List.map_injective_iff.mpr (Option.some_injective T)) h2
    rw [h3, sequence_length]
    simp [decode]

theorem permutationidx_get_n_fail {T : Type} (p : permutationidx T) (n : Nat)
    (h : ¬ n < p.capacity) : p.get_n n = .error .assertion := by
  simp [permutationidx.get_n, h]

theorem permutationidx_get_n_ok {T : Type} (p : permutationidx T) (n : Nat)
    (h : n < p.capacity) :
    ∃ out : List T, p.get_n n = .ok out ∧
      out.map some = (decode (List.range p.container.length) n).map (fun i => p.container[i]?) := by
  unfold permutationidx.get_n
  rw [if_neg (not_not.mpr h)]
  cases hs : p.container with
  | nil => exact ⟨[], by simp, by simp [decode, decodeAux]⟩
  | cons a l =>
    rw [if_neg (by simp)]
    have hin : ∀ b ∈ List.range (a :: l).length, ∃ r, (fun i => (a :: l)[i]?) b = some r := by
      intro b hb
      rw [List.mem_range] at hb
      exact ⟨(a :: l)[b], List.getElem?_eq_getElem hb⟩
    obtain ⟨out, h1, h2⟩ := loopG_spec (fun i => (a :: l)[i]?)
      (sequence ((List.range (a :: l).length).length - 1))
      ⟨n, List.range (a :: l).length, []⟩ (by simp [sequence_length]) hin
    refine ⟨out, ?_, ?_⟩
    · rw [permutationidx_loop_body_eq, permutationidx_last_push_eq, generate_n_range]
      simpa using h1
    · rw [h2, sequence_length]
      simp [decode]

/-! ## Properties of the decoding -/

theorem perm_getElem_cons_eraseIdx {T : Type} (l : List T) (i : Nat) (h : i < l.length) :
    List.Perm l (l[i] :: l.eraseIdx i) := by
  induction l generalizing i with
  | nil => simp at h
  | cons a l ih =>
    cases i with
    | zero => simp
    | succ j =>
      have hj : j < l.length := by simpa using h
      simp only [List.getElem_cons_succ, List.eraseIdx_cons_succ]
      exact ((ih j hj).cons a).trans (List.Perm.swap _ _ _)

theorem decodeAux_succ {T : Type} (k : Nat) (base : List T) (n : Nat)
    (hpos : n % base.length < base.length) :
    decodeAux (k + 1) base n =
      base[n % base.length] ::
        decodeAux k (base.eraseIdx (n % base.length)) (n / base.length) := by
  rw [decodeAux, List.getElem?_eq_getElem hpos]

theorem length_eraseIdx_mod {T : Type} (k : Nat) (base : List T) (n : Nat)
    (h : base.length = k + 1) : (base.eraseIdx (n % base.length)).length = k := by
  rw [List.length_eraseIdx_of_lt (Nat.mod_lt _ (by omega)), h]; simp

theorem decodeAux_perm {T : Type} (k : Nat) :
    ∀ (base : List T) (n : Nat), base.length = k → List.Perm (decodeAux k base n) base := by
  induction k with
  | zero =>
    intro base n h
    rw [List.length_eq_zero] at h
    simp [decodeAux, h]
  | succ k ih =>
    intro base n h
    have hpos : n % base.length < base.length := Nat.mod_lt _ (by omega)
    rw [decodeAux_succ k base n hpos]
    exact ((ih _ (n / base.length) (length_eraseIdx_mod k base n h)).cons _).trans
      (perm_getElem_cons_eraseIdx base _ hpos).symm

theorem decode_perm {T : Type} (base : List T) (n : Nat) : List.Perm (decode base n) base :=
  decodeAux_perm base.length base n rfl

theorem decode_length {T : Type} (base : List T) (n : Nat) :
    (decode base n).length = base.length :=
  (decode_perm base n).length_eq

theorem decodeAux_inj {T : Type} (k : Nat) :
    ∀ (base : List T) (n1 n2 : Nat), base.length = k → base.Nodup →
      n1 < k.factorial → n2 < k.factorial →
      decodeAux k base n1 = decodeAux k base n2 → n1 = n2 := by
  induction k with
  | zero =>
    intro base n1 n2 _ _ h1 h2 _
    simp at h1 h2
    omega
  | succ k ih =>
    intro base n1 n2 hlen hnd h1 h2 heq
    have hp1 : n1 % base.length < base.length := Nat.mod_lt _ (by omega)
    have hp2 : n2 % base.length < base.length := Nat.mod_lt _ (by omega)
    rw [decodeAux_succ k base n1 hp1, decodeAux_succ k base n2 hp2] at heq
    obtain ⟨hhead, htail⟩ := List.cons.inj heq
    have hmod : n1 % base.length = n2 % base.length :=
      (List.Nodup.getElem_inj_iff hnd).mp hhead
    rw [← hmod] at htail
    have hfac : ∀ n, n < (k + 1).factorial → n / base.length < k.factorial := by
      intro n hn
      rw [hlen]
      rw [Nat.factorial_succ] at hn
      exact Nat.div_lt_of_lt_mul hn
    have hdiv : n1 / base.length = n2 / base.length :=
      ih _ _ _ (length_eraseIdx_mod k base n1 hlen) (hnd.eraseIdx _)
        (hfac n1 h1) (hfac n2 h2) htail
    rw [← Nat.div_add_mod n1 base.length, ← Nat.div_add_mod n2 base.length, hmod, hdiv]

theorem decodeAux_surj {T : Type} (k : Nat) :
    ∀ (base out : List T), base.length = k → List.Perm out base →
      ∃ n, n < k.factorial ∧ decodeAux k base n = out := by
  induction k with
  | zero =>
    intro base out hlen hp
    rw [List.length_eq_zero] at hlen
    subst hlen
    exact ⟨0, by simp, by simp [decodeAux, List.Perm.eq_nil hp]⟩
  | succ k ih =>
    intro base out hlen hp
    cases out with
    | nil =>
      have := hp.length_eq
      simp [hlen] at this
    | cons x out =>
      have hx : x ∈ base := hp.subset (List.mem_cons_self x out)
      obtain ⟨i, hi, hix⟩ := List.getElem_of_mem hx
      have hp' : List.Perm out (base.eraseIdx i) := by
        have h1 := hp.trans (perm_getElem_cons_eraseIdx base i hi)
        rw [hix] at h1
        exact h1.cons_inv
      have hlen' : (base.eraseIdx i).length = k := by
        rw [List.length_eraseIdx_of_lt hi, hlen]; simp
      obtain ⟨m, hm, hdec⟩ := ih (base.eraseIdx i) out hlen' hp'
      have hi' : i < k + 1 := by omega
      have hmod : (i + (k + 1) * m) % base.length = i := by
        rw [hlen, Nat.add_mul_mod_self_left, Nat.mod_eq_of_lt hi']
      have hdiv : (i + (k + 1) * m) / base.length = m := by
        rw [hlen, Nat.add_mul_div_left _ _ (by omega), Nat.div_eq_of_lt hi', Nat.zero_add]
      refine ⟨i + (k + 1) * m, ?_, ?_⟩
      · rw [Nat.factorial_succ]
        have : (k + 1) * (m + 1) ≤ (k + 1) * k.factorial := Nat.mul_le_mul_left _ hm
        rw [Nat.mul_add, Nat.mul_one] at this
        omega
      · rw [decodeAux_succ k base _ (by rw [hmod]; exact hi)]
        simp only [hmod, hdiv, hix, hdec]

theorem decodeAux_zero_index {T : Type} (k : Nat) :
    ∀ (base : List T), base.length = k → decodeAux k base 0 = base := by
  induction k with
  | zero =>
    intro base h
    rw [List.length_eq_zero] at h
    simp [decodeAux, h]
  | succ k ih =>
    intro base h
    cases base with
    | nil => simp at h
    | cons a l =>
      have hl : l.length = k := by simpa using h
      rw [decodeAux_succ k (a :: l) 0 (by simp)]
      simp [ih l hl]

theorem decode_zero {T : Type} (base : List T) : decode base 0 = base :=
  decodeAux_zero_index base.length base rfl

/-! ## Capacity facts shared by the results below -/

theorem strong_size_t_pos_of_le (n : Nat) (h : n ≤ 65) : 0 < strong_size_t n := by
  have key : ∀ m, m < 66 → strong_size_t m ≠ 0 := by decide
  exact Nat.pos_of_ne_zero (key n (by omega))

theorem strong_size_t_sixty_six : strong_size_t 66 = 0 := by
  simp [strong_size_t, SIZE_T_MOD]

theorem strong_size_t_zero_of_ge (n : Nat) (h : 66 ≤ n) : strong_size_t n = 0 := by
  have h66 : SIZE_T_MOD ∣ Nat.factorial 66 := by
    have := strong_size_t_sixty_six
    rw [strong_size_t_eq_mod] at this
    exact Nat.dvd_of_mod_eq_zero this
  rw [strong_size_t_eq_mod]
  exact Nat.mod_eq_zero_of_dvd (h66.trans (Nat.factorial_dvd_factorial h))

theorem decode_inj_of_lt_capacity {T : Type} (s : List T) (hnd : s.Nodup) (n1 n2 : Nat)
    (h1 : n1 < strong_size_t s.length) (h2 : n2 < strong_size_t s.length)
    (heq : decode s n1 = decode s n2) : n1 = n2 :=
  decodeAux_inj s.length s n1 n2 rfl hnd
    (lt_of_lt_of_le h1 (strong_size_t_le_factorial _))
    (lt_of_lt_of_le h2 (strong_size_t_le_factorial _)) heq

/-! ## Results on `permutation::get_n` -/

/-- C1, claim as stated, refuted: for the set `{0, ..., 20}` the two different
indices `14197454024290336768` and `14197454024290336769` are both below `21!`
(and are `size_t` values), yet neither call of `get_n` returns a sequence: both
stop on the range assertion, with the same outcome. -/
theorem permutation_get_n_distinct_counterexample :
    List.Sorted (· < ·) (List.range 21) ∧
    (14197454024290336768 : Nat) ≠ 14197454024290336769 ∧
    14197454024290336768 < Nat.factorial 21 ∧
    14197454024290336769 < Nat.factorial 21 ∧
    14197454024290336769 < SIZE_T_MOD ∧
    (permutation.mk (List.range 21)).get_n 14197454024290336768 = .error .assertion ∧
    (permutation.mk (List.range 21)).get_n 14197454024290336769 = .error .assertion ∧
    (permutation.mk (List.range 21)).get_n 14197454024290336768 =
      (permutation.mk (List.range 21)).get_n 14197454024290336769 := by
  have h1 : (permutation.mk (List.range 21)).get_n 14197454024290336768 = .error .assertion :=
    permutation_get_n_fail _ _ (by decide)
  have h2 : (permutation.mk (List.range 21)).get_n 14197454024290336769 = .error .assertion :=
    permutation_get_n_fail _ _ (by decide)
  exact ⟨List.sorted_lt_range 21, by decide, by decide, by decide, by decide, h1, h2,
    h1.trans h2.symm⟩

/-- C1, amended: for every set `S` of `N` distinct values and every pair of
different indices `n1`, `n2` below `capacity()`, both calls of `get_n` return and
the two sequences differ; `capacity()` is `N!` whenever `N ≤ 20`. -/
theorem permutation_get_n_injective {T : Type} [LinearOrder T] (p : permutation T)
    (hs : p.s.Sorted (· < ·)) (n1 n2 : Nat) (hne : n1 ≠ n2)
    (h1 : n1 < p.capacity) (h2 : n2 < p.capacity) :
    (∃ r1 r2, p.get_n n1 = .ok r1 ∧ p.get_n n2 = .ok r2 ∧ r1 ≠ r2) ∧
    (p.s.length ≤ 20 → p.capacity = p.s.length.factorial) := by
  refine ⟨⟨decode p.s n1, decode p.s n2, permutation_get_n_ok p n1 h1,
    permutation_get_n_ok p n2 h2, ?_⟩, strong_size_t_of_le_twenty _⟩
  intro heq
  exact hne (decode_inj_of_lt_capacity p.s hs.nodup n1 n2 h1 h2 heq)

theorem permutation_get_n_injective_witness :
    List.Sorted (· < ·) [10, 20, 30] ∧ (2 : Nat) ≠ 4 ∧
    2 < (permutation.mk [10, 20, 30]).capacity ∧ 4 < (permutation.mk [10, 20, 30]).capacity ∧
    ((∃ r1 r2, (permutation.mk [10, 20, 30]).get_n 2 = .ok r1 ∧
        (permutation.mk [10, 20, 30]).get_n 4 = .ok r2 ∧ r1 ≠ r2) ∧
      ((permutation.mk [10, 20, 30]).s.length ≤ 20 →
        (permutation.mk [10, 20, 30]).capacity = (permutation.mk [10, 20, 30]).s.length.factorial)) :=
  ⟨by decide, by decide, by decide, by decide,
    permutation_get_n_injective (permutation.mk [10, 20, 30]) (by decide) 2 4
      (by decide) (by decide) (by decide)⟩

/-- C2, claim as stated, refuted: for the set `{0, ..., 20}` the ordering below is
a permutation of the set, yet no index at all makes `get_n` return it (the only
index that decodes to it is `14197454024290336768 < 21!`, which the range
assertion rejects). -/
theorem permutation_get_n_onto_counterexample :
    List.Sorted (· < ·) (List.range 21) ∧
    List.Perm [10, 19, 18, 6, 20, 7, 11, 9, 8, 1, 12, 3, 5, 14, 0, 13, 16, 15, 4, 2, 17]
      (List.range 21) ∧
    ∀ n, (permutation.mk (List.range 21)).get_n n ≠
      .ok [10, 19, 18, 6, 20, 7, 11, 9, 8, 1, 12, 3, 5, 14, 0, 13, 16, 15, 4, 2, 17] := by
  have hdec : decode (List.range 21) 14197454024290336768 =
      [10, 19, 18, 6, 20, 7, 11, 9, 8, 1, 12, 3, 5, 14, 0, 13, 16, 15, 4, 2, 17] := by rfl
  refine ⟨List.sorted_lt_range 21, ?_, ?_⟩
  · rw [← hdec]; exact decode_perm _ _
  · intro n hn
    by_cases hlt : n < (permutation.mk (List.range 21)).capacity
    · rw [permutation_get_n_ok _ n hlt, ← hdec] at hn
      have hcap : (permutation.mk (List.range 21)).capacity = 14197454024290336768 := by rfl
      have h21 : (List.range 21).length = 21 := by simp
      have hinj := decodeAux_inj 21 (List.range 21) n 14197454024290336768 h21
        (List.nodup_range 21)
        (lt_trans (hcap ▸ hlt) (by decide)) (by decide)
        (by
          have := Except.ok.inj hn
          simpa [decode, h21] using this)
      omega
    · rw [permutation_get_n_fail _ n hlt] at hn
      cases hn

/-- C2, amended: for every set `S` of `N` distinct values the calls `get_n(n)`
that return are exactly `capacity()` pairwise distinct orderings of `S`; when
`N ≤ 20`, `capacity()` is `N!` and every ordering of `S` is `get_n(n)` for some
`n < N!`. -/
theorem permutation_get_n_onto {T : Type} [LinearOrder T] (p : permutation T)
    (hs : p.s.Sorted (· < ·)) :
    (∃ L : List (List T), L.Nodup ∧ L.length = p.capacity ∧
      (∀ out, out ∈ L ↔ ∃ n, p.get_n n = .ok out) ∧ (∀ out ∈ L, List.Perm out p.s)) ∧
    (p.s.length ≤ 20 → p.capacity = p.s.length.factorial ∧
      ∀ out, List.Perm out p.s → ∃ n, n < p.s.length.factorial ∧ p.get_n n = .ok out) := by
  constructor
  · refine ⟨(List.range p.capacity).map (decode p.s), ?_, by simp, ?_, ?_⟩
    · refine (List.nodup_range _).map_on ?_
      intro a ha b hb hab
      exact decode_inj_of_lt_capacity p.s hs.nodup a b (List.mem_range.mp ha)
        (List.mem_range.mp hb) hab
    · intro out
      simp only [List.mem_map, List.mem_range]
      constructor
      · rintro ⟨n, hn, rfl⟩
        exact ⟨n, permutation_get_n_ok p n hn⟩
      · rintro ⟨n, hn⟩
        by_cases hlt : n < p.capacity
        · rw [permutation_get_n_ok p n hlt] at hn
          exact ⟨n, hlt, Except.ok.inj hn⟩
        · rw [permutation_get_n_fail p n hlt] at hn
          cases hn
    · intro out hout
      simp only [List.mem_map, List.mem_range] at hout
      obtain ⟨n, _, rfl⟩ := hout
      exact decode_perm _ _
  · intro hN
    have hcap : p.capacity = p.s.length.factorial := strong_size_t_of_le_twenty _ hN
    refine ⟨hcap, ?_⟩
    intro out hout
    obtain ⟨n, hn, hdec⟩ := decodeAux_surj p.s.length p.s out rfl hout
    exact ⟨n, hn, by rw [permutation_get_n_ok p n (hcap ▸ hn)]; exact congrArg _ hdec⟩

theorem permutation_get_n_onto_witness :
    List.Sorted (· < ·) [10, 20, 30] ∧
    ((∃ L : List (List Nat), L.Nodup ∧ L.length = (permutation.mk [10, 20, 30]).capacity ∧
      (∀ out, out ∈ L ↔ ∃ n, (permutation.mk [10, 20, 30]).get_n n = .ok out) ∧
      (∀ out ∈ L, List.Perm out (permutation.mk [10, 20, 30]).s)) ∧
    ((permutation.mk [10, 20, 30]).s.length ≤ 20 →
      (permutation.mk [10, 20, 30]).capacity = (permutation.mk [10, 20, 30]).s.length.factorial ∧
      ∀ out, List.Perm out (permutation.mk [10, 20, 30]).s →
        ∃ n, n < (permutation.mk [10, 20, 30]).s.length.factorial ∧
          (permutation.mk [10, 20, 30]).get_n n = .ok out)) :=
  ⟨by decide, permutation_get_n_onto (permutation.mk [10, 20, 30]) (by decide)⟩

/-- C3, claim as stated, refuted: for the set `{0, ..., 20}` the index
`2^64 - 1` (the largest `size_t`) is below `21!`, yet `get_n` returns no sequence:
it stops on the range assertion. -/
theorem permutation_get_n_perm_counterexample :
    List.Sorted (· < ·) (List.range 21) ∧
    18446744073709551615 < Nat.factorial (List.range 21).length ∧
    18446744073709551615 < SIZE_T_MOD ∧
    (permutation.mk (List.range 21)).get_n 18446744073709551615 = .error .assertion := by
  refine ⟨List.sorted_lt_range 21, by decide, by decide, ?_⟩
  exact permutation_get_n_fail _ _ (by decide)

/-- C3, amended: for every set `S` of `N` distinct values and every index `n`
below `capacity()` (which is `N!` whenever `N ≤ 20`), `get_n(n)` returns a
sequence of length exactly `N` that is a permutation of the ascending list of `S`
and contains each element of `S` exactly once. -/
theorem permutation_get_n_perm {T : Type} [LinearOrder T] (p : permutation T)
    (hs : p.s.Sorted (· < ·)) (n : Nat) (h : n < p.capacity) :
    (∃ r, p.get_n n = .ok r ∧ r.length = p.s.length ∧ List.Perm r p.s ∧
      ∀ x ∈ p.s, r.count x = 1) ∧
    (p.s.length ≤ 20 → p.capacity = p.s.length.factorial) := by
  refine ⟨⟨decode p.s n, permutation_get_n_ok p n h, decode_length _ _, decode_perm _ _, ?_⟩,
    strong_size_t_of_le_twenty _⟩
  intro x hx
  rw [(decode_perm p.s n).count_eq x]
  exact List.count_eq_one_of_mem hs.nodup hx

theorem permutation_get_n_perm_witness :
    List.Sorted (· < ·) [10, 20, 30] ∧ 3 < (permutation.mk [10, 20, 30]).capacity ∧
    ((∃ r, (permutation.mk [10, 20, 30]).get_n 3 = .ok r ∧
        r.length = (permutation.mk [10, 20, 30]).s.length ∧
        List.Perm r (permutation.mk [10, 20, 30]).s ∧
        ∀ x ∈ (permutation.mk [10, 20, 30]).s, r.count x = 1) ∧
      ((permutation.mk [10, 20, 30]).s.length ≤ 20 →
        (permutation.mk [10, 20, 30]).capacity =
          (permutation.mk [10, 20, 30]).s.length.factorial)) :=
  ⟨by decide, by decide,
    permutation_get_n_perm (permutation.mk [10, 20, 30]) (by decide) 3 (by decide)⟩

/-! ## Results on `strong` and `capacity` -/

/-- C4, claim as stated, refuted: for a base of 21 elements `capacity()` is
`14197454024290336768`, which is not `21! = 51090942171709440000`, in both
classes. -/
theorem capacity_factorial_counterexample :
    (permutation.mk (List.range 21)).capacity = 14197454024290336768 ∧
    (permutationidx.mk (List.range 21)).capacity = 14197454024290336768 ∧
    Nat.factorial (List.range 21).length = 51090942171709440000 ∧
    (permutation.mk (List.range 21)).capacity ≠ Nat.factorial (List.range 21).length ∧
    (permutationidx.mk (List.range 21)).capacity ≠ Nat.factorial (List.range 21).length := by
  refine ⟨by rfl, by rfl, by decide, by decide, by decide⟩

/-- C4, amended: for every `n ≥ 0`, `strong(n)` over exact integers is `n!`, with
`strong(0) = 1` and `strong(0..6) = 1, 1, 2, 6, 24, 120, 720`; `capacity()` of both
classes, computed in `size_t`, is `N!` modulo `2^64`, hence `N!` for every base of
`N ≤ 20` elements. -/
theorem strong_eq_factorial_capacity :
    (∀ n, strong n = n.factorial) ∧ strong 0 = 1 ∧
    (List.range 7).map strong = [1, 1, 2, 6, 24, 120, 720] ∧
    (∀ (T : Type) (p : permutation T), p.capacity = p.s.length.factorial % 2 ^ 64 ∧
      (p.s.length ≤ 20 → p.capacity = p.s.length.factorial)) ∧
    (∀ (T : Type) (p : permutationidx T),
      p.capacity = p.container.length.factorial % 2 ^ 64 ∧
      (p.container.length ≤ 20 → p.capacity = p.container.length.factorial)) :=
  ⟨strong_eq_factorial, rfl, by decide,
    fun _ p => ⟨strong_size_t_eq_mod _, strong_size_t_of_le_twenty _⟩,
    fun _ p => ⟨strong_size_t_eq_mod _, strong_size_t_of_le_twenty _⟩⟩

/-! ## Range check of `get_n` -/

theorem permutationidx_get_n_length {T : Type} (p : permutationidx T) (n : Nat) (out : List T)
    (h : out.map some = (decode (List.range p.container.length) n).map
      (fun i => p.container[i]?)) : out.length = p.container.length := by
  have := congrArg List.length h
  simpa [decode_length] using this

/-- C5: in both classes, with assertions as failures, `get_n(n)` fails if and only
if `n >= capacity()`, the failure being the range assertion; for every
`n < capacity()` it returns a sequence (of the length of the base), so an
out-of-range index is never clamped or wrapped into range. -/
theorem get_n_fails_iff_out_of_range (T : Type) :
    (∀ (p : permutation T) (n : Nat),
      ((∃ e, p.get_n n = .error e) ↔ p.capacity ≤ n) ∧
      (p.capacity ≤ n → p.get_n n = .error .assertion) ∧
      (n < p.capacity → ∃ r, p.get_n n = .ok r ∧ r.length = p.s.length)) ∧
    (∀ (p : permutationidx T) (n : Nat),
      ((∃ e, p.get_n n = .error e) ↔ p.capacity ≤ n) ∧
      (p.capacity ≤ n → p.get_n n = .error .assertion) ∧
      (n < p.capacity → ∃ r, p.get_n n = .ok r ∧ r.length = p.container.length)) := by
  constructor
  · intro p n
    refine ⟨⟨?_, fun h => ⟨_, permutation_get_n_fail p n (by omega)⟩⟩,
      fun h => permutation_get_n_fail p n (by omega),
      fun h => ⟨_, permutation_get_n_ok p n h, decode_length _ _⟩⟩
    rintro ⟨e, he⟩
    by_contra hlt
    rw [permutation_get_n_ok p n (by omega)] at he
    cases he
  · intro p n
    refine ⟨⟨?_, fun h => ⟨_, permutationidx_get_n_fail p n (by omega)⟩⟩,
      fun h => permutationidx_get_n_fail p n (by omega), ?_⟩
    · rintro ⟨e, he⟩
      by_contra hlt
      obtain ⟨out, hout, _⟩ := permutationidx_get_n_ok p n (by omega)
      rw [hout] at he
      cases he
    · intro h
      obtain ⟨out, hout, hmap⟩ := permutationidx_get_n_ok p n h
      exact ⟨out, hout, permutationidx_get_n_length p n out hmap⟩

/-- C6: for the empty base and for every one-element base `[x]`, in both classes:
`capacity()` is `1`, `get_n(0)` returns the empty sequence, respectively `[x]`,
and `get_n(1)` fails on the range assertion. -/
theorem get_n_small_base (T : Type) :
    ((permutation.mk ([] : List T)).capacity = 1 ∧
      (permutation.mk ([] : List T)).get_n 0 = .ok [] ∧
      (permutation.mk ([] : List T)).get_n 1 = .error .assertion) ∧
    (∀ x : T, (permutation.mk [x]).capacity = 1 ∧
      (permutation.mk [x]).get_n 0 = .ok [x] ∧
      (permutation.mk [x]).get_n 1 = .error .assertion) ∧
    ((permutationidx.mk ([] : List T)).capacity = 1 ∧
      (permutationidx.mk ([] : List T)).get_n 0 = .ok [] ∧
      (permutationidx.mk ([] : List T)).get_n 1 = .error .assertion) ∧
    (∀ x : T, (permutationidx.mk [x]).capacity = 1 ∧
      (permutationidx.mk [x]).get_n 0 = .ok [x] ∧
      (permutationidx.mk [x]).get_n 1 = .error .assertion) :=
  ⟨⟨rfl, rfl, rfl⟩, fun _ => ⟨rfl, rfl, rfl⟩, ⟨rfl, rfl, rfl⟩, fun _ => ⟨rfl, rfl, rfl⟩⟩

/-! ## Decoding positions and mapping them back -/

theorem range_map_getElem_opt {T : Type} (cs : List T) :
    (List.range cs.length).map (fun i => cs[i]?) = cs.map some := by
  apply List.ext_getElem?
  intro i
  by_cases hi : i < cs.length
  · simp [List.getElem?_map, List.getElem?_range hi, List.getElem?_eq_getElem hi]
  · have h1 : cs.length ≤ i := by omega
    simp [List.getElem?_map, List.getElem?_eq_none, h1]

theorem decodeAux_map {A B : Type} (f : A → B) (k : Nat) :
    ∀ (base : List A) (n : Nat),
      decodeAux k (base.map f) n = (decodeAux k base n).map f := by
  induction k with
  | zero => intro base n; simp [decodeAux]
  | succ k ih =>
    intro base n
    rw [decodeAux, decodeAux]
    simp only [List.length_map, List.getElem?_map]
    cases h : base[n % base.length]? with
    | none => simp
    | some x =>
      have hmap : (base.map f).eraseIdx (n % base.length) =
          (base.eraseIdx (n % base.length)).map f := by
        rw [List.eraseIdx_eq_take_drop_succ, List.eraseIdx_eq_take_drop_succ]
        simp [List.map_take, List.map_drop]
      simp only [Option.map_some', List.map_cons, hmap, ih]

theorem decode_map {A B : Type} (f : A → B) (base : List A) (n : Nat) :
    decode (base.map f) n = (decode base n).map f := by
  simp only [decode, List.length_map, decodeAux_map]

theorem permutationidx_get_n_eq_decode {T : Type} (p : permutationidx T) (n : Nat)
    (h : n < p.capacity) : p.get_n n = .ok (decode p.container n) := by
  obtain ⟨out, hout, hmap⟩ := permutationidx_get_n_ok p n h
  rw [← decode_map, range_map_getElem_opt, decode_map] at hmap
  rw [hout, (List.map_injective_iff.mpr (Option.some_injective T)) hmap]

/-! ## Index zero -/

/-- C7, claim as stated, refuted: for the set `{0, ..., 65}` and for the
container `[0, ..., 65]`, `capacity()` is `0` and `get_n(0)` stops on the range
assertion instead of returning the elements in their order. -/
theorem get_n_zero_counterexample :
    List.Sorted (· < ·) (List.range 66) ∧
    (permutation.mk (List.range 66)).capacity = 0 ∧
    (permutation.mk (List.range 66)).get_n 0 = .error .assertion ∧
    (permutationidx.mk (List.range 66)).capacity = 0 ∧
    (permutationidx.mk (List.range 66)).get_n 0 = .error .assertion := by
  have h1 : (permutation.mk (List.range 66)).capacity = 0 := by
    simp [permutation.capacity, strong_size_t_sixty_six]
  have h2 : (permutationidx.mk (List.range 66)).capacity = 0 := by
    simp [permutationidx.capacity, strong_size_t_sixty_six]
  exact ⟨List.sorted_lt_range 66, h1, permutation_get_n_fail _ _ (by omega), h2,
    permutationidx_get_n_fail _ _ (by omega)⟩

/-- C7, amended: for every set `S` of at most 65 elements,
`permutation<T>(S).get_n(0)` returns the elements of `S` in the ascending
iteration order of the set; likewise for every container `c` of at most 65
elements `permutationidx<C>(c).get_n(0)` returns `c` unchanged. -/
theorem get_n_zero {T : Type} [LinearOrder T] (s cs : List T) (hs : s.Sorted (· < ·))
    (hN : s.length ≤ 65) (hM : cs.length ≤ 65) :
    ((permutation.mk s).get_n 0 = .ok s ∧ List.Sorted (· < ·) s) ∧
    (permutationidx.mk cs).get_n 0 = .ok cs := by
  refine ⟨⟨?_, hs⟩, ?_⟩
  · rw [permutation_get_n_ok _ 0 (strong_size_t_pos_of_le _ hN), decode_zero]
  · rw [permutationidx_get_n_eq_decode _ 0 (strong_size_t_pos_of_le _ hM), decode_zero]

theorem get_n_zero_witness :
    List.Sorted (· < ·) ['a', 'b', 'c'] ∧ ['a', 'b', 'c'].length ≤ 65 ∧
    ['a', 'a', 'c'].length ≤ 65 ∧
    (((permutation.mk ['a', 'b', 'c']).get_n 0 = .ok ['a', 'b', 'c'] ∧
      List.Sorted (· < ·) ['a', 'b', 'c']) ∧
    (permutationidx.mk ['a', 'a', 'c']).get_n 0 = .ok ['a', 'a', 'c']) :=
  ⟨by decide, by decide, by decide,
    get_n_zero ['a', 'b', 'c'] ['a', 'a', 'c'] (by decide) (by decide) (by decide)⟩

/-! ## `permutationidx::get_n` against `permutation::get_n` on positions -/

/-- C8, claim as stated, refuted: for the container `[0, ..., 20]` the index
`2^64 - 1` is below `21!`, yet `permutationidx::get_n` returns no sequence (so
none of length 21): it stops on the range assertion, as does
`permutation<int>({0, ..., 20}).get_n`. -/
theorem permutationidx_get_n_refines_counterexample :
    18446744073709551615 < Nat.factorial (List.range 21).length ∧
    18446744073709551615 < SIZE_T_MOD ∧
    (permutationidx.mk (List.range 21)).get_n 18446744073709551615 = .error .assertion ∧
    (permutation.mk (List.range (List.range 21).length)).get_n 18446744073709551615 =
      .error .assertion := by
  refine ⟨by decide, by decide, permutationidx_get_n_fail _ _ (by decide),
    permutation_get_n_fail _ _ (by decide)⟩

/-- C8, amended: for every container `c` of `N` elements (duplicates allowed) and
every `n < capacity()` (which is `N!` whenever `N ≤ 20`),
`permutation<int>({0, ..., N-1}).get_n(n)` returns a sequence `p` of positions and
`permutationidx<C>(c).get_n(n)` returns the sequence whose `i`-th element is
`c[p[i]]`; the result has length `N` and the same multiset of values as `c`. -/
theorem permutationidx_get_n_refines {T : Type} (cs : List T) (n : Nat)
    (h : n < (permutationidx.mk cs).capacity) :
    (∃ pidx out, (permutation.mk (List.range cs.length)).get_n n = .ok pidx ∧
      (permutationidx.mk cs).get_n n = .ok out ∧
      out.map some = pidx.map (fun i => cs[i]?) ∧
      out.length = cs.length ∧ List.Perm out cs) ∧
    (cs.length ≤ 20 → (permutationidx.mk cs).capacity = cs.length.factorial) := by
  have hcap : n < (permutation.mk (List.range cs.length)).capacity := by
    simpa [permutation.capacity, permutationidx.capacity] using h
  refine ⟨⟨decode (List.range cs.length) n, decode cs n, permutation_get_n_ok _ n hcap,
    permutationidx_get_n_eq_decode _ n h, ?_, decode_length _ _, decode_perm _ _⟩,
    strong_size_t_of_le_twenty _⟩
  rw [← decode_map, ← decode_map, range_map_getElem_opt]

theorem permutationidx_get_n_refines_witness :
    4 < (permutationidx.mk ['a', 'a', 'c']).capacity ∧
    ((∃ pidx out, (permutation.mk (List.range ['a', 'a', 'c'].length)).get_n 4 = .ok pidx ∧
      (permutationidx.mk ['a', 'a', 'c']).get_n 4 = .ok out ∧
      out.map some = pidx.map (fun i => ['a', 'a', 'c'][i]?) ∧
      out.length = ['a', 'a', 'c'].length ∧ List.Perm out ['a', 'a', 'c']) ∧
    (['a', 'a', 'c'].length ≤ 20 →
      (permutationidx.mk ['a', 'a', 'c']).capacity = ['a', 'a', 'c'].length.factorial)) :=
  ⟨by decide, permutationidx_get_n_refines ['a', 'a', 'c'] 4 (by decide)⟩

/-! ## Containers with repeated values -/

theorem swap_range_perm (N i j : Nat) (hi : i < N) (hj : j < N) :
    List.Perm ((List.range N).map (Equiv.swap i j)) (List.range N) := by
  refine (List.perm_ext_iff_of_nodup ?_ (List.nodup_range N)).mpr ?_
  · exact (List.nodup_range N).map (Equiv.swap i j).injective
  · intro a
    simp only [List.mem_map, List.mem_range]
    constructor
    · rintro ⟨k, hk, rfl⟩
      rw [Equiv.swap_apply_def]
      split_ifs <;> omega
    · intro ha
      refine ⟨Equiv.swap i j a, ?_, Equiv.swap_apply_self i j a⟩
      rw [Equiv.swap_apply_def]
      split_ifs <;> omega

theorem getElem_opt_swap {T : Type} (cs : List T) (i j : Nat) (heq : cs[i]? = cs[j]?)
    (k : Nat) : cs[Equiv.swap i j k]? = cs[k]? := by
  rw [Equiv.swap_apply_def]
  split_ifs with h1 h2
  · rw [h1, heq]
  · rw [h2, heq]
  · rfl

theorem decode_second_index {T : Type} (cs : List T) (i j : Nat) (hij : i < j)
    (hj : j < cs.length) (heq : cs[i]? = cs[j]?) :
    ∃ n, n ≠ 0 ∧ n < cs.length.factorial ∧ decode cs n = cs := by
  obtain ⟨n, hn, hdec⟩ := decodeAux_surj cs.length (List.range cs.length)
    ((List.range cs.length).map (Equiv.swap i j)) (List.length_range _)
    (swap_range_perm cs.length i j (by omega) hj)
  have hdec2 : decode (List.range cs.length) n = (List.range cs.length).map (Equiv.swap i j) := by
    simpa [decode] using hdec
  refine ⟨n, ?_, hn, ?_⟩
  · rintro rfl
    rw [decode_zero] at hdec2
    have h1 := congrArg (fun l => l[i]?) hdec2
    have hi : i < cs.length := by omega
    simp only [List.getElem?_map, List.getElem?_range hi, Option.map_some',
      Equiv.swap_apply_left] at h1
    have := Option.some.inj h1
    omega
  · apply List.map_injective_iff.mpr (Option.some_injective T)
    show (decode cs n).map some = cs.map some
    rw [← decode_map, ← range_map_getElem_opt, decode_map, hdec2, List.map_map]
    apply List.map_congr_left
    intro k _
    exact getElem_opt_swap cs i j heq k

/-- C9, claim as stated, refuted: the container of 21 copies of `'a'` holds the
same value at positions 0 and 1, but its `capacity()` is `14197454024290336768`,
not `21! = 51090942171709440000`. -/
theorem permutationidx_duplicates_counterexample :
    (List.replicate 21 'a')[0]? = (List.replicate 21 'a')[1]? ∧
    (List.replicate 21 'a').length = 21 ∧
    (permutationidx.mk (List.replicate 21 'a')).capacity = 14197454024290336768 ∧
    (permutationidx.mk (List.replicate 21 'a')).capacity ≠
      Nat.factorial (List.replicate 21 'a').length := by
  refine ⟨by decide, by decide, by rfl, by decide⟩

/-- C9, amended: for every container `c` of `N ≤ 20` elements that holds the same
value at two different positions `i < j`, `capacity()` is `N!` (duplicates are
counted) and two distinct indices `n1 != n2`, both below `N!`, make `get_n` return
the same value sequence; for `c = ['a','a','c']`, `capacity() = 6` and
`get_n(0) = get_n(1) = ['a','a','c']`. -/
theorem permutationidx_duplicates {T : Type} (cs : List T) (i j : Nat) (hij : i < j)
    (hj : j < cs.length) (heq : cs[i]? = cs[j]?) (hN : cs.length ≤ 20) :
    (permutationidx.mk cs).capacity = cs.length.factorial ∧
    (∃ n1 n2 r, n1 ≠ n2 ∧ n1 < cs.length.factorial ∧ n2 < cs.length.factorial ∧
      (permutationidx.mk cs).get_n n1 = .ok r ∧ (permutationidx.mk cs).get_n n2 = .ok r) ∧
    ((permutationidx.mk ['a', 'a', 'c']).capacity = 6 ∧
      (permutationidx.mk ['a', 'a', 'c']).get_n 0 = .ok ['a', 'a', 'c'] ∧
      (permutationidx.mk ['a', 'a', 'c']).get_n 1 = .ok ['a', 'a', 'c']) := by
  have hcap : (permutationidx.mk cs).capacity = cs.length.factorial :=
    strong_size_t_of_le_twenty _ hN
  obtain ⟨n, hn0, hn, hdec⟩ := decode_second_index cs i j hij hj heq
  refine ⟨hcap, ⟨0, n, cs, fun h => hn0 h.symm, Nat.factorial_pos _, hn, ?_, ?_⟩, rfl, rfl, rfl⟩
  · rw [permutationidx_get_n_eq_decode _ 0 (hcap ▸ Nat.factorial_pos _), decode_zero]
  · rw [permutationidx_get_n_eq_decode _ n (hcap ▸ hn), hdec]

theorem permutationidx_duplicates_witness :
    (0 : Nat) < 2 ∧ 2 < ['x', 'y', 'x'].length ∧ ['x', 'y', 'x'][0]? = ['x', 'y', 'x'][2]? ∧
    ['x', 'y', 'x'].length ≤ 20 ∧
    ((permutationidx.mk ['x', 'y', 'x']).capacity = ['x', 'y', 'x'].length.factorial ∧
    (∃ n1 n2 r, n1 ≠ n2 ∧ n1 < ['x', 'y', 'x'].length.factorial ∧
      n2 < ['x', 'y', 'x'].length.factorial ∧
      (permutationidx.mk ['x', 'y', 'x']).get_n n1 = .ok r ∧
      (permutationidx.mk ['x', 'y', 'x']).get_n n2 = .ok r) ∧
    ((permutationidx.mk ['a', 'a', 'c']).capacity = 6 ∧
      (permutationidx.mk ['a', 'a', 'c']).get_n 0 = .ok ['a', 'a', 'c'] ∧
      (permutationidx.mk ['a', 'a', 'c']).get_n 1 = .ok ['a', 'a', 'c'])) :=
  ⟨by decide, by decide, by decide, by decide,
    permutationidx_duplicates ['x', 'y', 'x'] 0 2 (by decide) (by decide) (by decide)
      (by decide)⟩

/-! ## `get_rand` -/

theorem dist_max_eq (cap : Nat) (h0 : 0 < cap) (h1 : cap < SIZE_T_MOD) :
    (cap + SIZE_T_MOD - 1) % SIZE_T_MOD = cap - 1 := by
  have h : cap + SIZE_T_MOD - 1 = (cap - 1) + SIZE_T_MOD := by omega
  rw [h, Nat.add_mod_right, Nat.mod_eq_of_lt (by omega)]

/-- C10, claim as stated, refuted: for the set `{0, ..., 65}` and the container
`[0, ..., 65]`, `capacity()` is `0`, the configured upper bound `capacity()-1` is
`2^64 - 1`, and for every drawn value `k` (all of them lie in `[0, 2^64 - 1]`,
e.g. `k = 0`) `get_rand()` fails the range assertion. -/
theorem get_rand_counterexample :
    (permutation.mk (List.range 66)).dist_max = 18446744073709551615 ∧
    (permutationidx.mk (List.range 66)).dist_max = 18446744073709551615 ∧
    0 ≤ (permutation.mk (List.range 66)).dist_max ∧
    (permutation.mk (List.range 66)).get_rand 0 = .error .assertion ∧
    (permutationidx.mk (List.range 66)).get_rand 0 = .error .assertion ∧
    (∀ k, (permutation.mk (List.range 66)).get_rand k = .error .assertion) ∧
    (∀ k, (permutationidx.mk (List.range 66)).get_rand k = .error .assertion) := by
  have h1 : (permutation.mk (List.range 66)).capacity = 0 := by
    simp [permutation.capacity, strong_size_t_sixty_six]
  have h2 : (permutationidx.mk (List.range 66)).capacity = 0 := by
    simp [permutationidx.capacity, strong_size_t_sixty_six]
  have h3 : ∀ k, (permutation.mk (List.range 66)).get_rand k = .error .assertion :=
    fun k => permutation_get_n_fail _ k (by omega)
  have h4 : ∀ k, (permutationidx.mk (List.range 66)).get_rand k = .error .assertion :=
    fun k => permutationidx_get_n_fail _ k (by omega)
  refine ⟨?_, ?_, Nat.zero_le _, h3 0, h4 0, h3, h4⟩
  · simp [permutation.dist_max, h1, SIZE_T_MOD]
  · simp [permutationidx.dist_max, h2, SIZE_T_MOD]

/-- C10, amended: with the random source modelled as the drawn value `k`, for both
classes over a base of at most 65 elements the configured range is
`[0, capacity()-1]` without underflow, every `k` in it satisfies the precondition
`k < capacity()` of `get_n`, and `get_rand()` returns exactly `get_n(k)`, a
sequence: the range assertion never fails. -/
theorem get_rand_in_range {T : Type} (s cs : List T) (hN : s.length ≤ 65)
    (hM : cs.length ≤ 65) (k1 k2 : Nat)
    (h1 : k1 ≤ (permutation.mk s).dist_max) (h2 : k2 ≤ (permutationidx.mk cs).dist_max) :
    ((permutation.mk s).dist_max + 1 = (permutation.mk s).capacity ∧
      k1 < (permutation.mk s).capacity ∧
      (permutation.mk s).get_rand k1 = (permutation.mk s).get_n k1 ∧
      ∃ r, (permutation.mk s).get_rand k1 = .ok r) ∧
    ((permutationidx.mk cs).dist_max + 1 = (permutationidx.mk cs).capacity ∧
      k2 < (permutationidx.mk cs).capacity ∧
      (permutationidx.mk cs).get_rand k2 = (permutationidx.mk cs).get_n k2 ∧
      ∃ r, (permutationidx.mk cs).get_rand k2 = .ok r) := by
  have hp1 : 0 < (permutation.mk s).capacity := strong_size_t_pos_of_le _ hN
  have hp2 : 0 < (permutationidx.mk cs).capacity := strong_size_t_pos_of_le _ hM
  have hd1 : (permutation.mk s).dist_max = (permutation.mk s).capacity - 1 :=
    dist_max_eq _ hp1 (strong_size_t_lt _)
  have hd2 : (permutationidx.mk cs).dist_max = (permutationidx.mk cs).capacity - 1 :=
    dist_max_eq _ hp2 (strong_size_t_lt _)
  have hk1 : k1 < (permutation.mk s).capacity := by omega
  have hk2 : k2 < (permutationidx.mk cs).capacity := by omega
  exact ⟨⟨by omega, hk1, rfl, _, permutation_get_n_ok _ k1 hk1⟩,
    ⟨by omega, hk2, rfl, _, permutationidx_get_n_eq_decode _ k2 hk2⟩⟩

theorem get_rand_in_range_witness :
    ['a', 'b', 'c'].length ≤ 65 ∧ ['a', 'a', 'c'].length ≤ 65 ∧
    5 ≤ (permutation.mk ['a', 'b', 'c']).dist_max ∧
    3 ≤ (permutationidx.mk ['a', 'a', 'c']).dist_max ∧
    (((permutation.mk ['a', 'b', 'c']).dist_max + 1 = (permutation.mk ['a', 'b', 'c']).capacity ∧
      5 < (permutation.mk ['a', 'b', 'c']).capacity ∧
      (permutation.mk ['a', 'b', 'c']).get_rand 5 = (permutation.mk ['a', 'b', 'c']).get_n 5 ∧
      ∃ r, (permutation.mk ['a', 'b', 'c']).get_rand 5 = .ok r) ∧
    ((permutationidx.mk ['a', 'a', 'c']).dist_max + 1 =
        (permutationidx.mk ['a', 'a', 'c']).capacity ∧
      3 < (permutationidx.mk ['a', 'a', 'c']).capacity ∧
      (permutationidx.mk ['a', 'a', 'c']).get_rand 3 =
        (permutationidx.mk ['a', 'a', 'c']).get_n 3 ∧
      ∃ r, (permutationidx.mk ['a', 'a', 'c']).get_rand 3 = .ok r)) :=
  ⟨by decide, by decide, by decide, by decide,
    get_rand_in_range ['a', 'b', 'c'] ['a', 'a', 'c'] (by decide) (by decide) 5 3
      (by decide) (by decide)⟩

/-! ## `capacity()` is positive only while the product does not vanish -/

/-- C11, claim as stated, refuted: for a base of 66 elements `capacity()`, computed
in `size_t`, is `0`, not `>= 1`, and the `size_t` expression `capacity()-1` given
to the distribution underflows to `2^64 - 1`, in both classes. -/
theorem capacity_pos_counterexample :
    strong_size_t 66 = 0 ∧
    (permutation.mk (List.range 66)).capacity = 0 ∧
    ¬ 1 ≤ (permutation.mk (List.range 66)).capacity ∧
    (permutation.mk (List.range 66)).dist_max = 18446744073709551615 ∧
    (permutationidx.mk (List.range 66)).capacity = 0 ∧
    ¬ 1 ≤ (permutationidx.mk (List.range 66)).capacity ∧
    (permutationidx.mk (List.range 66)).dist_max = 18446744073709551615 := by
  have h1 : (permutation.mk (List.range 66)).capacity = 0 := by
    simp [permutation.capacity, strong_size_t_sixty_six]
  have h2 : (permutationidx.mk (List.range 66)).capacity = 0 := by
    simp [permutationidx.capacity, strong_size_t_sixty_six]
  refine ⟨strong_size_t_sixty_six, h1, by omega, ?_, h2, by omega, ?_⟩
  · simp [permutation.dist_max, h1, SIZE_T_MOD]
  · simp [permutationidx.dist_max, h2, SIZE_T_MOD]

/-- C11, amended: for every base size `N` with `0 ≤ N ≤ 65`, `capacity()` as the
code computes it (`strong` over `size_t`, arithmetic modulo `2^64`) is `>= 1`, so
in both classes the expression `capacity()-1` used as the upper bound of the
random-index distribution does not underflow: it is the integer `capacity() - 1`. -/
theorem capacity_pos (N : Nat) (hN : N ≤ 65) :
    1 ≤ strong_size_t N ∧
    (∀ (T : Type) (p : permutation T), p.s.length = N →
      1 ≤ p.capacity ∧ (p.dist_max : Int) = (p.capacity : Int) - 1) ∧
    (∀ (T : Type) (p : permutationidx T), p.container.length = N →
      1 ≤ p.capacity ∧ (p.dist_max : Int) = (p.capacity : Int) - 1) := by
  have hpos : 0 < strong_size_t N := strong_size_t_pos_of_le N hN
  have hd : (strong_size_t N + SIZE_T_MOD - 1) % SIZE_T_MOD = strong_size_t N - 1 :=
    dist_max_eq _ hpos (strong_size_t_lt N)
  refine ⟨hpos, ?_, ?_⟩
  · intro T p hp
    have hc : p.capacity = strong_size_t N := by rw [permutation.capacity, hp]
    have hm : p.dist_max = strong_size_t N - 1 := by rw [permutation.dist_max, hc, hd]
    rw [hc, hm]
    exact ⟨hpos, by omega⟩
  · intro T p hp
    have hc : p.capacity = strong_size_t N := by rw [permutationidx.capacity, hp]
    have hm : p.dist_max = strong_size_t N - 1 := by rw [permutationidx.dist_max, hc, hd]
    rw [hc, hm]
    exact ⟨hpos, by omega⟩

theorem capacity_pos_witness :
    65 ≤ 65 ∧
    (1 ≤ strong_size_t 65 ∧
    (∀ (T : Type) (p : permutation T), p.s.length = 65 →
      1 ≤ p.capacity ∧ (p.dist_max : Int) = (p.capacity : Int) - 1) ∧
    (∀ (T : Type) (p : permutationidx T), p.container.length = 65 →
      1 ≤ p.capacity ∧ (p.dist_max : Int) = (p.capacity : Int) - 1)) :=
  ⟨by decide, capacity_pos 65 (by decide)⟩

/-! ## Iterating `sequence` and `series` -/

theorem range_for_spec (τ : IntegralType) (k : Nat) :
    ∀ (pos : Int) (fuel : Nat), pos + k ≤ τ.hi → k < fuel →
      range_for τ fuel pos (pos + k) = some ((List.range k).map (fun i : Nat => pos + (i : Int))) := by
  induction k with
  | zero =>
    intro pos fuel _ hf
    obtain ⟨f, rfl⟩ : ∃ f, fuel = f + 1 := ⟨fuel - 1, by omega⟩
    simp [range_for]
  | succ k ih =>
    intro pos fuel hhi hf
    obtain ⟨f, rfl⟩ : ∃ f, fuel = f + 1 := ⟨fuel - 1, by omega⟩
    have hne : pos ≠ pos + ((k + 1 : Nat) : Int) := by
      have : (0 : Int) < ((k + 1 : Nat) : Int) := by exact_mod_cast Nat.succ_pos k
      omega
    have hincr : τ.incr pos = pos + 1 := by
      have : pos < τ.hi := by push_cast at hhi; omega
      simp [IntegralType.incr, this]
    have hih := ih (pos + 1) f (by push_cast at hhi; omega) (by omega)
    have hlast : pos + ((k + 1 : Nat) : Int) = pos + 1 + (k : Int) := by push_cast; ring
    rw [range_for]
    simp only [bne_iff_ne, ne_eq, hne, not_false_eq_true, if_true, hincr]
    rw [hlast, hih, List.range_succ_eq_map]
    simp only [Option.map_some', List.map_cons, List.map_map, Nat.cast_zero, add_zero]
    congr 2
    apply List.map_congr_left
    intro i _
    simp only [Function.comp, Nat.cast_succ]
    ring

theorem range_for_self (τ : IntegralType) (fuel : Nat) (pos : Int) :
    range_for τ (fuel + 1) pos pos = some [] := by
  simp [range_for]

/-- C12: for every integer `n >= 0` of an integral type (so `n` is at most the
greatest value of the type), the loop over `sequence(n)` from `begin()` to `end()`
with `operator++` and `operator!=` ends and visits exactly the `n` values
`0, 1, ..., n-1` in increasing order; for `n = 0` it visits nothing.  The
instantiation used inside `get_n` visits the same values. -/
theorem sequence_for_yields (τ : IntegralType) (n fuel : Nat) (hn : (n : Int) ≤ τ.hi)
    (hf : n < fuel) :
    sequence_for τ fuel n = .ok (some ((List.range n).map Int.ofNat)) ∧
    ((List.range n).map Int.ofNat).length = n ∧
    List.Sorted (· < ·) ((List.range n).map Int.ofNat) ∧
    sequence_for τ fuel 0 = .ok (some []) ∧
    sequence n = List.range n := by
  have h1 := range_for_spec τ n 0 fuel (by simpa using hn) hf
  have h0 := range_for_spec τ 0 0 fuel (by
    have : (0 : Int) ≤ (n : Int) := Int.ofNat_nonneg n
    simp only [Nat.cast_zero, add_zero]; omega) (by omega)
  refine ⟨?_, by simp, ?_, ?_, sequence_eq_range n⟩
  · simp only [sequence_for, ge_iff_le, Int.ofNat_nonneg, if_true]
    rw [Int.zero_add] at h1
    rw [h1]
    simp
  · exact (List.pairwise_lt_range n).map _ (fun a b h => Int.ofNat_lt.mpr h)
  · simp only [sequence_for, ge_iff_le, le_refl, if_true]
    simpa using h0

theorem sequence_for_yields_witness :
    ((6 : Nat) : Int) ≤ int_type.hi ∧ 6 < 7 ∧
    (sequence_for int_type 7 (6 : Nat) = .ok (some ((List.range 6).map Int.ofNat)) ∧
    ((List.range 6).map Int.ofNat).length = 6 ∧
    List.Sorted (· < ·) ((List.range 6).map Int.ofNat) ∧
    sequence_for int_type 7 0 = .ok (some []) ∧
    sequence 6 = List.range 6) :=
  ⟨by decide, by decide, sequence_for_yields int_type 6 7 (by decide) (by decide)⟩

theorem series_for_spec (τ : IntegralType) (f l : Int) (fuel : Nat) (hfl : f ≤ l)
    (hl : l < τ.hi) (hf : (l - f).toNat + 1 < fuel) :
    series_for τ fuel f l =
      .ok (some ((List.range ((l - f).toNat + 1)).map (fun i : Nat => f + (i : Int)))) := by
  have hincr : τ.incr l = f + (((l - f).toNat + 1 : Nat) : Int) := by
    have h1 : ((l - f).toNat : Int) = l - f := Int.toNat_of_nonneg (by omega)
    simp only [IntegralType.incr, hl, if_true]
    push_cast
    omega
  have h := range_for_spec τ ((l - f).toNat + 1) f fuel (by rw [← hincr]; simp only [IntegralType.incr, hl, if_true]; omega) hf
  simp only [series_for, hfl, if_true]
  rw [hincr, h]

/-- C13, evaluated on the failing input: over `unsigned char`, for `f = 0` and
`l = 255` (`f <= l`, so the constructor assertion holds) the loop over
`series(f, l)` ends at once and visits no value, although `0, 1, ..., 255` are 256
values: `end()` is `++` of position 255, which is position 0, the position of
`begin()`. -/
theorem series_full_range_empty :
    (0 : Int) ≤ 255 ∧ unsigned_char.hi = 255 ∧ unsigned_char.incr 255 = 0 ∧
    (∀ fuel, series_for unsigned_char (fuel + 1) 0 255 = .ok (some [])) ∧
    ((List.range 256).map Int.ofNat).length = 256 := by
  refine ⟨by decide, by decide, by decide, ?_, by simp⟩
  intro fuel
  have h : unsigned_char.incr 255 = 0 := by decide
  simp only [series_for, h]
  rw [range_for_self]
  rfl

/-! ## `tenpower` -/

theorem tenpower_rec_eq (n : Nat) : tenpower_rec n = 10 ^ n := by
  induction n with
  | zero => rfl
  | succ m ih =>
    cases m with
    | zero => rfl
    | succ j =>
      rw [tenpower_rec, if_pos (by omega), ih]
      ring

/-- C14: for every integer `n >= 0`, `tenpower(n)` over exact integers is `10^n`
(`tenpower(0) = 1`, `tenpower(1) = 10`, `tenpower(6) = 1000000`), and for a
negative `n` of a signed type the assertion `n >= 0` fails. -/
theorem tenpower_eq_pow :
    (∀ n : Nat, tenpower (n : Int) = .ok ((10 : Int) ^ n)) ∧
    tenpower 0 = .ok 1 ∧ tenpower 1 = .ok 10 ∧ tenpower 6 = .ok 1000000 ∧
    (∀ z : Int, z < 0 → tenpower z = .error .assertion) := by
  refine ⟨?_, rfl, rfl, rfl, ?_⟩
  · intro n
    simp [tenpower, tenpower_rec_eq]
  · intro z hz
    simp [tenpower, hz]

/-! ## The loop without the range assertion -/

theorem permutation_get_n_NDEBUG_eq {T : Type} (p : permutation T) (n : Nat) :
    p.get_n_NDEBUG n = .ok (decode p.s n) := by
  unfold permutation.get_n_NDEBUG
  cases hs : p.s with
  | nil => simp [decode, decodeAux]
  | cons a l =>
    rw [if_neg (by simp)]
    obtain ⟨out, h1, h2⟩ := loopG_spec (some : T → Option T) (sequence ((a :: l).length - 1))
      ⟨n, a :: l, []⟩ (by simp [sequence_length]) (fun b _ => ⟨b, rfl⟩)
    rw [permutation_loop_body_eq, permutation_last_push_eq]
    rw [show (do
          let st ← (sequence ((a :: l).length - 1)).foldlM (fun st _ => bodyG some st)
            (⟨n, a :: l, []⟩ : LoopState T T)
          lastG some st) =
        ((sequence ((a :: l).length - 1)).foldlM (fun st _ => bodyG some st)
            (⟨n, a :: l, []⟩ : LoopState T T) >>= lastG some) from rfl, h1]
    have h3 : out = decodeAux ((sequence ((a :: l).length - 1)).length + 1) (a :: l) n :=
      (List.map_injective_iff.mpr (Option.some_injective T)) h2
    rw [h3, sequence_length]
    simp [decode]

theorem permutationidx_get_n_NDEBUG_eq {T : Type} (p : permutationidx T) (n : Nat) :
    p.get_n_NDEBUG n = .ok (decode p.container n) := by
  unfold permutationidx.get_n_NDEBUG
  cases hs : p.container with
  | nil => simp [decode, decodeAux]
  | cons a l =>
    rw [if_neg (by simp)]
    have hin : ∀ b ∈ List.range (a :: l).length, ∃ r, (fun i => (a :: l)[i]?) b = some r := by
      intro b hb
      rw [List.mem_range] at hb
      exact ⟨(a :: l)[b], List.getElem?_eq_getElem hb⟩
    obtain ⟨out, h1, h2⟩ := loopG_spec (fun i => (a :: l)[i]?)
      (sequence ((List.range (a :: l).length).length - 1))
      ⟨n, List.range (a :: l).length, []⟩ (by simp [sequence_length]) hin
    have h3 : out = decode (a :: l) n := by
      have h4 : out.map some =
          (decode (List.range (a :: l).length) n).map (fun i => (a :: l)[i]?) := by
        rw [h2, sequence_length]
        simp [decode]
      rw [← decode_map, range_map_getElem_opt, decode_map] at h4
      exact (List.map_injective_iff.mpr (Option.some_injective T)) h4
    rw [permutationidx_loop_body_eq, permutationidx_last_push_eq, generate_n_range]
    rw [← h3]
    simpa using h1

theorem permutation_get_n_unfold {T : Type} (p : permutation T) (n : Nat) :
    p.get_n n = if n < p.capacity then p.get_n_NDEBUG n else .error .assertion := by
  unfold permutation.get_n permutation.get_n_NDEBUG
  by_cases h : n < p.capacity <;> simp [h]

theorem permutationidx_get_n_unfold {T : Type} (p : permutationidx T) (n : Nat) :
    p.get_n n = if n < p.capacity then p.get_n_NDEBUG n else .error .assertion := by
  unfold permutationidx.get_n permutationidx.get_n_NDEBUG
  by_cases h : n < p.capacity <;> simp [h]

theorem decodeAux_mod_factorial {T : Type} (k : Nat) :
    ∀ (base : List T) (n : Nat), base.length = k →
      decodeAux k base (n % k.factorial) = decodeAux k base n := by
  induction k with
  | zero => intro base n _; simp [decodeAux]
  | succ k ih =>
    intro base n hlen
    have hmod : n % (k + 1).factorial % base.length = n % base.length := by
      rw [hlen]
      exact Nat.mod_mod_of_dvd n (Nat.dvd_factorial (Nat.succ_pos k) (le_refl _))
    have hdiv : n % (k + 1).factorial / base.length = n / base.length % k.factorial := by
      rw [hlen, Nat.factorial_succ, Nat.mod_mul_right_div_self]
    have hpos : n % base.length < base.length := Nat.mod_lt _ (by omega)
    rw [decodeAux_succ k base _ (by rw [hmod]; exact hpos), decodeAux_succ k base n hpos]
    simp only [hmod, hdiv, ih _ _ (length_eraseIdx_mod k base n hlen)]

theorem decode_mod_factorial {T : Type} (base : List T) (n : Nat) :
    decode base (n % base.length.factorial) = decode base n :=
  decodeAux_mod_factorial base.length base n rfl

/-- C19: with the range assertion compiled out (`NDEBUG`), for every base of `N`
elements and every index `n`, the sequence produced for `n` is the sequence
produced for `n mod N!`, in both classes; `get_n` itself differs from that code
only by the check `n < capacity()`, which turns an out-of-range index into a
failure instead. -/
theorem get_n_NDEBUG_wraps (T : Type) :
    (∀ (p : permutation T) (n : Nat),
      p.get_n_NDEBUG n = p.get_n_NDEBUG (n % p.s.length.factorial) ∧
      (∃ r, r.length = p.s.length ∧ p.get_n_NDEBUG n = .ok r) ∧
      p.get_n n = (if n < p.capacity then p.get_n_NDEBUG n else .error .assertion)) ∧
    (∀ (p : permutationidx T) (n : Nat),
      p.get_n_NDEBUG n = p.get_n_NDEBUG (n % p.container.length.factorial) ∧
      (∃ r, r.length = p.container.length ∧ p.get_n_NDEBUG n = .ok r) ∧
      p.get_n n = (if n < p.capacity then p.get_n_NDEBUG n else .error .assertion)) := by
  constructor
  · intro p n
    refine ⟨?_, ⟨_, decode_length _ _, permutation_get_n_NDEBUG_eq p n⟩,
      permutation_get_n_unfold p n⟩
    rw [permutation_get_n_NDEBUG_eq, permutation_get_n_NDEBUG_eq, decode_mod_factorial]
  · intro p n
    refine ⟨?_, ⟨_, decode_length _ _, permutationidx_get_n_NDEBUG_eq p n⟩,
      permutationidx_get_n_unfold p n⟩
    rw [permutationidx_get_n_NDEBUG_eq, permutationidx_get_n_NDEBUG_eq, decode_mod_factorial]

/-! ## State of the loop after some of its turns -/

theorem loopG_state {B R : Type} (f : B → Option R) (ks : List Nat) :
    ∀ st : LoopState B R, ks.length < st.base.length →
      (∀ b ∈ st.base, ∃ r, f b = some r) →
      ∃ st1 : LoopState B R,
        ks.foldlM (fun st _ => bodyG f st) st = .ok st1 ∧
        st1.base.length + ks.length = st.base.length ∧
        (∀ b ∈ st1.base, b ∈ st.base) ∧
        st1.n = st.n / Nat.descFactorial st.base.length ks.length := by
  induction ks with
  | nil =>
    intro st _ _
    exact ⟨st, rfl, by simp, fun b hb => hb, by simp⟩
  | cons k ks ih =>
    intro st hlen hf
    simp only [List.length_cons] at hlen
    have hne : ¬ st.base.length = 0 := by omega
    have hpos : st.n % st.base.length < st.base.length := Nat.mod_lt _ (by omega)
    obtain ⟨r, hr⟩ := hf _ (List.getElem_mem hpos)
    have hlen1 : (st.base.eraseIdx (st.n % st.base.length)).length = st.base.length - 1 :=
      List.length_eraseIdx_of_lt hpos
    obtain ⟨st1, h1, h2, h3, h4⟩ := ih
      ⟨st.n / st.base.length, st.base.eraseIdx (st.n % st.base.length), st.result ++ [r]⟩
      (by simp only [hlen1]; omega) (fun b hb => hf b (List.mem_of_mem_eraseIdx hb))
    have hb : bodyG f st = .ok
        ⟨st.n / st.base.length, st.base.eraseIdx (st.n % st.base.length), st.result ++ [r]⟩ := by
      simp only [bodyG, hne, if_false, List.getElem?_eq_getElem hpos, hr]
    refine ⟨st1, ?_, ?_, fun b hb1 => List.mem_of_mem_eraseIdx (h3 b hb1), ?_⟩
    · rw [List.foldlM_cons, hb]
      exact h1
    · simp only [hlen1] at h2
      simp only [List.length_cons]
      omega
    · simp only [hlen1] at h4
      rw [h4, Nat.div_div_eq_div_mul]
      obtain ⟨m, hm⟩ : ∃ m, st.base.length = m + 1 := ⟨st.base.length - 1, by omega⟩
      simp only [hm, List.length_cons, Nat.add_sub_cancel, Nat.succ_descFactorial_succ]

theorem sequence_take_length (m k : Nat) (h : k ≤ m) : ((sequence m).take k).length = k := by
  rw [List.length_take, sequence_length]
  omega

theorem descFactorial_pred (N : Nat) (hN : 1 ≤ N) :
    Nat.descFactorial N (N - 1) = N.factorial := by
  rw [Nat.descFactorial_eq_div (by omega)]
  have : N - (N - 1) = 1 := by omega
  simp [this]

theorem permutation_loop_turns_state {T : Type} (base : List T) (n k : Nat)
    (hk : k + 1 ≤ base.length) :
    ∃ st, permutation.loop_turns base n k = .ok st ∧ st.base.length = base.length - k ∧
      (∀ b ∈ st.base, b ∈ base) ∧ st.n = n / Nat.descFactorial base.length k := by
  have hl : ((sequence (base.length - 1)).take k).length = k :=
    sequence_take_length _ _ (by omega)
  obtain ⟨st, h1, h2, h3, h4⟩ := loopG_state (some : T → Option T)
    ((sequence (base.length - 1)).take k) ⟨n, base, []⟩ (by rw [hl]; exact hk)
    (fun b _ => ⟨b, rfl⟩)
  refine ⟨st, ?_, ?_, h3, ?_⟩
  · rw [permutation.loop_turns, permutation_loop_body_eq]; exact h1
  · rw [hl] at h2; simp only at h2; omega
  · rw [hl] at h4; exact h4

theorem permutationidx_loop_turns_state {T : Type} (cs : List T) (n k : Nat)
    (hk : k + 1 ≤ cs.length) :
    ∃ st, permutationidx.loop_turns cs n k = .ok st ∧ st.base.length = cs.length - k ∧
      (∀ i ∈ st.base, i < cs.length) ∧ st.n = n / Nat.descFactorial cs.length k := by
  have hl : ((sequence ((List.range cs.length).length - 1)).take k).length = k :=
    sequence_take_length _ _ (by simp; omega)
  have hin : ∀ b ∈ List.range cs.length, ∃ r, (fun i => cs[i]?) b = some r := by
    intro b hb
    rw [List.mem_range] at hb
    exact ⟨cs[b], List.getElem?_eq_getElem hb⟩
  obtain ⟨st, h1, h2, h3, h4⟩ := loopG_state (fun i => cs[i]?)
    ((sequence ((List.range cs.length).length - 1)).take k)
    ⟨n, List.range cs.length, []⟩ (by rw [hl]; simpa using hk) hin
  refine ⟨st, ?_, ?_, fun i hi => List.mem_range.mp (h3 i hi), ?_⟩
  · rw [permutationidx.loop_turns, permutationidx_loop_body_eq, generate_n_range]; exact h1
  · rw [hl] at h2; simp only [List.length_range] at h2; omega
  · rw [hl] at h4; simpa using h4

theorem permutation_NDEBUG_via_loop_turns {T : Type} (base : List T) (n : Nat)
    (hN : 1 ≤ base.length) :
    (permutation.mk base).get_n_NDEBUG n =
      permutation.loop_turns base n (base.length - 1) >>= permutation.last_push := by
  have hne : base ≠ [] := by intro h; simp [h] at hN
  have ht : (sequence (base.length - 1)).take (base.length - 1) = sequence (base.length - 1) :=
    List.take_of_length_le (by rw [sequence_length])
  simp only [permutation.get_n_NDEBUG, permutation.loop_turns, ht, List.isEmpty_iff, hne,
    Bool.false_eq_true, if_false]

theorem permutationidx_NDEBUG_via_loop_turns {T : Type} (cs : List T) (n : Nat)
    (hN : 1 ≤ cs.length) :
    (permutationidx.mk cs).get_n_NDEBUG n =
      permutationidx.loop_turns cs n (cs.length - 1) >>= permutationidx.last_push cs := by
  have hne : cs ≠ [] := by intro h; simp [h] at hN
  have hg : (generate_n [] cs.length 0).length = cs.length := by
    rw [generate_n_range, List.length_range]
  have ht : (sequence (cs.length - 1)).take (cs.length - 1) = sequence (cs.length - 1) :=
    List.take_of_length_le (by rw [sequence_length])
  simp only [permutationidx.get_n_NDEBUG, permutationidx.loop_turns, hg, ht, List.isEmpty_iff,
    hne, Bool.false_eq_true, if_false]

/-- C16: for every base of `N >= 1` elements and every `n < N!`, in both classes,
after the `N-1` turns of the decode loop exactly one element remains in the working
list and the residual index is `0`, so the element appended last,
`base[n % base.size()]`, is the element at index `0` of the remaining list; the
sequence the code returns is the loop's result followed by that element. -/
theorem decode_loop_leaves_one {T : Type} (base cs : List T) (n m : Nat)
    (hN : 1 ≤ base.length) (hn : n < base.length.factorial)
    (hM : 1 ≤ cs.length) (hm : m < cs.length.factorial) :
    (∃ st x, permutation.loop_turns base n (base.length - 1) = .ok st ∧
      st.base = [x] ∧ st.n = 0 ∧ st.base[st.n % st.base.length]? = st.base[0]? ∧
      st.base[0]? = some x ∧ permutation.last_push st = .ok (st.result ++ [x]) ∧
      (permutation.mk base).get_n_NDEBUG n = .ok (st.result ++ [x])) ∧
    (∃ st i x, permutationidx.loop_turns cs m (cs.length - 1) = .ok st ∧
      st.base = [i] ∧ st.n = 0 ∧ st.base[st.n % st.base.length]? = st.base[0]? ∧
      st.base[0]? = some i ∧ cs[i]? = some x ∧
      permutationidx.last_push cs st = .ok (st.result ++ [x]) ∧
      (permutationidx.mk cs).get_n_NDEBUG m = .ok (st.result ++ [x])) := by
  constructor
  · obtain ⟨st, h1, h2, _, h4⟩ := permutation_loop_turns_state base n (base.length - 1)
      (by omega)
    have hlen : st.base.length = 1 := by omega
    obtain ⟨x, hx⟩ := List.length_eq_one.mp hlen
    have hn0 : st.n = 0 := by
      rw [h4, descFactorial_pred _ hN]; exact Nat.div_eq_of_lt hn
    have hlast : permutation.last_push st = .ok (st.result ++ [x]) := by
      simp [permutation.last_push, hx, hn0]
    refine ⟨st, x, h1, hx, hn0, by simp [hx, hn0], by simp [hx], hlast, ?_⟩
    rw [permutation_NDEBUG_via_loop_turns base n hN, h1]
    exact hlast
  · obtain ⟨st, h1, h2, h3, h4⟩ := permutationidx_loop_turns_state cs m (cs.length - 1)
      (by omega)
    have hlen : st.base.length = 1 := by omega
    obtain ⟨i, hi⟩ := List.length_eq_one.mp hlen
    have hn0 : st.n = 0 := by
      rw [h4, descFactorial_pred _ hM]; exact Nat.div_eq_of_lt hm
    have hic : i < cs.length := h3 i (by simp [hi])
    have hlast : permutationidx.last_push cs st = .ok (st.result ++ [cs[i]]) := by
      simp [permutationidx.last_push, hi, hn0, List.getElem?_eq_getElem hic]
    refine ⟨st, i, cs[i], h1, hi, hn0, by simp [hi, hn0], by simp [hi],
      List.getElem?_eq_getElem hic, hlast, ?_⟩
    rw [permutationidx_NDEBUG_via_loop_turns cs m hM, h1]
    exact hlast

theorem decode_loop_leaves_one_witness :
    1 ≤ ['a', 'b', 'c'].length ∧ 5 < ['a', 'b', 'c'].length.factorial ∧
    1 ≤ ['a', 'a', 'c'].length ∧ 4 < ['a', 'a', 'c'].length.factorial ∧
    ((∃ st x, permutation.loop_turns ['a', 'b', 'c'] 5 (['a', 'b', 'c'].length - 1) = .ok st ∧
      st.base = [x] ∧ st.n = 0 ∧ st.base[st.n % st.base.length]? = st.base[0]? ∧
      st.base[0]? = some x ∧ permutation.last_push st = .ok (st.result ++ [x]) ∧
      (permutation.mk ['a', 'b', 'c']).get_n_NDEBUG 5 = .ok (st.result ++ [x])) ∧
    (∃ st i x, permutationidx.loop_turns ['a', 'a', 'c'] 4 (['a', 'a', 'c'].length - 1) = .ok st ∧
      st.base = [i] ∧ st.n = 0 ∧ st.base[st.n % st.base.length]? = st.base[0]? ∧
      st.base[0]? = some i ∧ ['a', 'a', 'c'][i]? = some x ∧
      permutationidx.last_push ['a', 'a', 'c'] st = .ok (st.result ++ [x]) ∧
      (permutationidx.mk ['a', 'a', 'c']).get_n_NDEBUG 4 = .ok (st.result ++ [x]))) :=
  ⟨by decide, by decide, by decide, by decide,
    decode_loop_leaves_one ['a', 'b', 'c'] ['a', 'a', 'c'] 5 4 (by decide) (by decide)
      (by decide) (by decide)⟩

/-! ## Every access of `get_n` is in bounds -/

theorem permutation_get_n_fault {T : Type} (p : permutation T) (n : Nat) (e : Fault)
    (h : p.get_n n = .error e) : e = .assertion := by
  by_cases hlt : n < p.capacity
  · rw [permutation_get_n_ok p n hlt] at h
    cases h
  · rw [permutation_get_n_fail p n hlt] at h
    exact (Except.error.inj h).symm

theorem permutationidx_get_n_fault {T : Type} (p : permutationidx T) (n : Nat) (e : Fault)
    (h : p.get_n n = .error e) : e = .assertion := by
  by_cases hlt : n < p.capacity
  · rw [permutationidx_get_n_eq_decode p n hlt] at h
    cases h
  · rw [permutationidx_get_n_fail p n hlt] at h
    exact (Except.error.inj h).symm

/-- C17: for every non-empty base of `N` elements and every index `n`, every access
in `get_n` is in bounds.  At the `k`-th loop turn (`k = 0..N-2`) the working list
has exactly `N-k >= 2` elements, so `base.size()` is not `0`, the position
`n % base.size()` is a valid index and the turn completes; the final `base[...]` is
a valid access too; in `permutationidx::get_n` every value held in the working
list is an index in `[0, N)`, so `container[*it]` is a valid access.  Hence the
only fault `get_n` can end in is the range assertion. -/
theorem get_n_accesses_in_bounds {T : Type} (base cs : List T) (n : Nat)
    (hN : 1 ≤ base.length) (hM : 1 ≤ cs.length) :
    ((∀ k, k + 2 ≤ base.length →
        ∃ st, permutation.loop_turns base n k = .ok st ∧
          st.base.length = base.length - k ∧ 2 ≤ st.base.length ∧ st.base.length ≠ 0 ∧
          st.n % st.base.length < st.base.length ∧
          (∃ x, st.base[st.n % st.base.length]? = some x) ∧
          ∃ st1, permutation.loop_body st = .ok st1) ∧
      (∃ st x, permutation.loop_turns base n (base.length - 1) = .ok st ∧
        st.base.length = 1 ∧ st.base[st.n % st.base.length]? = some x) ∧
      (∀ e, (permutation.mk base).get_n n = .error e → e = .assertion)) ∧
    ((∀ k, k + 2 ≤ cs.length →
        ∃ st, permutationidx.loop_turns cs n k = .ok st ∧
          st.base.length = cs.length - k ∧ 2 ≤ st.base.length ∧ st.base.length ≠ 0 ∧
          st.n % st.base.length < st.base.length ∧
          (∀ i ∈ st.base, i < cs.length) ∧
          (∃ i x, st.base[st.n % st.base.length]? = some i ∧ cs[i]? = some x) ∧
          ∃ st1, permutationidx.loop_body cs st = .ok st1) ∧
      (∃ st i x, permutationidx.loop_turns cs n (cs.length - 1) = .ok st ∧
        st.base.length = 1 ∧ (∀ j ∈ st.base, j < cs.length) ∧
        st.base[st.n % st.base.length]? = some i ∧ cs[i]? = some x) ∧
      (∀ e, (permutationidx.mk cs).get_n n = .error e → e = .assertion)) := by
  refine ⟨⟨?_, ?_, fun e h => permutation_get_n_fault _ n e h⟩,
    ⟨?_, ?_, fun e h => permutationidx_get_n_fault _ n e h⟩⟩
  · intro k hk
    obtain ⟨st, h1, h2, _, _⟩ := permutation_loop_turns_state base n k (by omega)
    have hne : ¬ st.base.length = 0 := by omega
    have hpos : st.n % st.base.length < st.base.length := Nat.mod_lt _ (by omega)
    refine ⟨st, h1, h2, by omega, hne, hpos, ⟨_, List.getElem?_eq_getElem hpos⟩, ?_⟩
    refine ⟨⟨st.n / st.base.length, st.base.eraseIdx (st.n % st.base.length),
      st.result ++ [st.base[st.n % st.base.length]]⟩, ?_⟩
    simp only [permutation.loop_body, hne, if_false, List.getElem?_eq_getElem hpos]
  · obtain ⟨st, h1, h2, _, _⟩ := permutation_loop_turns_state base n (base.length - 1)
      (by omega)
    have hpos : st.n % st.base.length < st.base.length := Nat.mod_lt _ (by omega)
    exact ⟨st, _, h1, by omega, List.getElem?_eq_getElem hpos⟩
  · intro k hk
    obtain ⟨st, h1, h2, h3, _⟩ := permutationidx_loop_turns_state cs n k (by omega)
    have hne : ¬ st.base.length = 0 := by omega
    have hpos : st.n % st.base.length < st.base.length := Nat.mod_lt _ (by omega)
    have hic : st.base[st.n % st.base.length] < cs.length := h3 _ (List.getElem_mem hpos)
    refine ⟨st, h1, h2, by omega, hne, hpos, h3,
      ⟨_, _, List.getElem?_eq_getElem hpos, List.getElem?_eq_getElem hic⟩, ?_⟩
    refine ⟨⟨st.n / st.base.length, st.base.eraseIdx (st.n % st.base.length),
      st.result ++ [cs[st.base[st.n % st.base.length]]]⟩, ?_⟩
    simp only [permutationidx.loop_body, hne, if_false, List.getElem?_eq_getElem hpos,
      List.getElem?_eq_getElem hic]
  · obtain ⟨st, h1, h2, h3, _⟩ := permutationidx_loop_turns_state cs n (cs.length - 1)
      (by omega)
    have hpos : st.n % st.base.length < st.base.length := Nat.mod_lt _ (by omega)
    have hic : st.base[st.n % st.base.length] < cs.length := h3 _ (List.getElem_mem hpos)
    exact ⟨st, _, _, h1, by omega, h3, List.getElem?_eq_getElem hpos,
      List.getElem?_eq_getElem hic⟩

theorem get_n_accesses_in_bounds_witness :
    1 ≤ ['a', 'b', 'c', 'd'].length ∧ 1 ≤ ['a', 'a', 'c'].length ∧
    (((∀ k, k + 2 ≤ ['a', 'b', 'c', 'd'].length →
        ∃ st, permutation.loop_turns ['a', 'b', 'c', 'd'] 23 k = .ok st ∧
          st.base.length = ['a', 'b', 'c', 'd'].length - k ∧ 2 ≤ st.base.length ∧
          st.base.length ≠ 0 ∧ st.n % st.base.length < st.base.length ∧
          (∃ x, st.base[st.n % st.base.length]? = some x) ∧
          ∃ st1, permutation.loop_body st = .ok st1) ∧
      (∃ st x, permutation.loop_turns ['a', 'b', 'c', 'd'] 23
          (['a', 'b', 'c', 'd'].length - 1) = .ok st ∧
        st.base.length = 1 ∧ st.base[st.n % st.base.length]? = some x) ∧
      (∀ e, (permutation.mk ['a', 'b', 'c', 'd']).get_n 23 = .error e → e = .assertion)) ∧
    ((∀ k, k + 2 ≤ ['a', 'a', 'c'].length →
        ∃ st, permutationidx.loop_turns ['a', 'a', 'c'] 23 k = .ok st ∧
          st.base.length = ['a', 'a', 'c'].length - k ∧ 2 ≤ st.base.length ∧
          st.base.length ≠ 0 ∧ st.n % st.base.length < st.base.length ∧
          (∀ i ∈ st.base, i < ['a', 'a', 'c'].length) ∧
          (∃ i x, st.base[st.n % st.base.length]? = some i ∧ ['a', 'a', 'c'][i]? = some x) ∧
          ∃ st1, permutationidx.loop_body ['a', 'a', 'c'] st = .ok st1) ∧
      (∃ st i x, permutationidx.loop_turns ['a', 'a', 'c'] 23
          (['a', 'a', 'c'].length - 1) = .ok st ∧
        st.base.length = 1 ∧ (∀ j ∈ st.base, j < ['a', 'a', 'c'].length) ∧
        st.base[st.n % st.base.length]? = some i ∧ ['a', 'a', 'c'][i]? = some x) ∧
      (∀ e, (permutationidx.mk ['a', 'a', 'c']).get_n 23 = .error e → e = .assertion))) :=
  ⟨by decide, by decide,
    get_n_accesses_in_bounds ['a', 'b', 'c', 'd'] ['a', 'a', 'c'] 23 (by decide) (by decide)⟩

/-! ## One decoding step -/

theorem strong_size_t_succ_le (m : Nat) :
    strong_size_t (m + 1) ≤ strong_size_t m * (m + 1) := by
  rw [strong_size_t_succ]
  exact Nat.mod_le _ _

theorem decode_step {T : Type} (s : List T) (n : Nat) (hN : 1 ≤ s.length)
    (hpos : n % s.length < s.length) :
    decode s n = s[n % s.length] :: decode (s.eraseIdx (n % s.length)) (n / s.length) := by
  obtain ⟨k, hk⟩ : ∃ k, s.length = k + 1 := ⟨s.length - 1, by omega⟩
  have hl : (s.eraseIdx (n % s.length)).length = k := length_eraseIdx_mod k s n hk
  rw [decode, decode, hl]
  have h := decodeAux_succ k s n hpos
  rw [← hk] at h
  exact h

/-- C15, claim as stated, refuted: for the set `{0, ..., 20}` (`N = 21 >= 2`) and
`n = 2^64 - 1 < 21!`, the element at position `n mod 21 = 15` is `15`,
`n div 21 = 878416384462359600 < 20!` and `get_n(n div 21)` on the set without `15`
returns a sequence, but `get_n(n)` on the whole set returns none: it stops on the
range assertion. -/
theorem get_n_step_counterexample :
    List.Sorted (· < ·) (List.range 21) ∧ 2 ≤ (List.range 21).length ∧
    18446744073709551615 < Nat.factorial (List.range 21).length ∧
    18446744073709551615 % (List.range 21).length = 15 ∧
    (List.range 21)[15]? = some 15 ∧
    18446744073709551615 / (List.range 21).length = 878416384462359600 ∧
    878416384462359600 < Nat.factorial 20 ∧
    (permutation.mk ((List.range 21).eraseIdx 15)).get_n 878416384462359600 =
      .ok [0, 11, 17, 9, 5, 4, 6, 7, 12, 18, 8, 19, 14, 20, 2, 13, 1, 16, 3, 10] ∧
    (permutation.mk (List.range 21)).get_n 18446744073709551615 = .error .assertion := by
  refine ⟨List.sorted_lt_range 21, by decide, by decide, by decide, by decide, by decide,
    by decide, ?_, permutation_get_n_fail _ _ (by decide)⟩
  rw [permutation_get_n_ok _ _ (by decide)]
  rfl

/-- C15, amended: the loop of `permutation::get_n` implements the
factorial-number-system decode step by step: for every set `S` of `N >= 2` elements
and every `n < capacity()` (which is `N!` whenever `N ≤ 20`), with `x` the element
at position `n mod N` of the ascending order of `S`, `get_n(n)` on `S` is `x`
followed by `get_n(n div N)` on `S` without `x`, and `n div N` is below `(N-1)!`
and below the `capacity()` of `S` without `x`, so the recursive call is within its
precondition. -/
theorem get_n_step {T : Type} [LinearOrder T] (p : permutation T)
    (hs : p.s.Sorted (· < ·)) (hN : 2 ≤ p.s.length) (n : Nat) (hn : n < p.capacity) :
    (∃ x r, p.s[n % p.s.length]? = some x ∧
      List.Sorted (· < ·) (p.s.eraseIdx (n % p.s.length)) ∧
      (∀ y, y ∈ p.s.eraseIdx (n % p.s.length) ↔ y ∈ p.s ∧ y ≠ x) ∧
      n / p.s.length < (p.s.length - 1).factorial ∧
      n / p.s.length < (permutation.mk (p.s.eraseIdx (n % p.s.length))).capacity ∧
      (permutation.mk (p.s.eraseIdx (n % p.s.length))).get_n (n / p.s.length) = .ok r ∧
      p.get_n n = .ok (x :: r)) ∧
    (p.s.length ≤ 20 → p.capacity = p.s.length.factorial) := by
  refine ⟨?_, strong_size_t_of_le_twenty _⟩
  obtain ⟨k, hk⟩ : ∃ k, p.s.length = k + 1 := ⟨p.s.length - 1, by omega⟩
  have hpos : n % p.s.length < p.s.length := Nat.mod_lt _ (by omega)
  have hl : (p.s.eraseIdx (n % p.s.length)).length = k := length_eraseIdx_mod k p.s n hk
  have hcap : n / p.s.length < (permutation.mk (p.s.eraseIdx (n % p.s.length))).capacity := by
    have h1 : n < strong_size_t (k + 1) := by
      have := hn
      rw [permutation.capacity, hk] at this
      exact this
    have h2 : n < (k + 1) * strong_size_t k := by
      have := strong_size_t_succ_le k
      rw [Nat.mul_comm] at this
      omega
    rw [permutation.capacity, hl, hk]
    exact Nat.div_lt_of_lt_mul h2
  have hfac : n / p.s.length < (p.s.length - 1).factorial := by
    have h1 := lt_of_lt_of_le hcap (strong_size_t_le_factorial _)
    rw [hl] at h1
    have hk2 : p.s.length - 1 = k := by omega
    rw [hk2]
    exact h1
  refine ⟨p.s[n % p.s.length], decode (p.s.eraseIdx (n % p.s.length)) (n / p.s.length),
    List.getElem?_eq_getElem hpos, hs.sublist (List.eraseIdx_sublist _ _), ?_, hfac, hcap,
    permutation_get_n_ok _ _ hcap, ?_⟩
  · intro y
    have hperm := perm_getElem_cons_eraseIdx p.s _ hpos
    have hnd : (p.s[n % p.s.length] :: p.s.eraseIdx (n % p.s.length)).Nodup :=
      hperm.nodup_iff.mp hs.nodup
    constructor
    · intro hy
      refine ⟨List.mem_of_mem_eraseIdx hy, ?_⟩
      rintro rfl
      exact (List.nodup_cons.mp hnd).1 hy
    · rintro ⟨hy, hne⟩
      have := hperm.subset hy
      rcases List.mem_cons.mp this with h | h
      · exact absurd h hne
      · exact h
  · rw [permutation_get_n_ok p n hn, decode_step p.s n (by omega) hpos]

theorem get_n_step_witness :
    List.Sorted (· < ·) [10, 20, 30] ∧ 2 ≤ (permutation.mk [10, 20, 30]).s.length ∧
    5 < (permutation.mk [10, 20, 30]).capacity ∧
    ((∃ x r, (permutation.mk [10, 20, 30]).s[5 % (permutation.mk [10, 20, 30]).s.length]? =
        some x ∧
      List.Sorted (· < ·) ((permutation.mk [10, 20, 30]).s.eraseIdx
        (5 % (permutation.mk [10, 20, 30]).s.length)) ∧
      (∀ y, y ∈ (permutation.mk [10, 20, 30]).s.eraseIdx
          (5 % (permutation.mk [10, 20, 30]).s.length) ↔
        y ∈ (permutation.mk [10, 20, 30]).s ∧ y ≠ x) ∧
      5 / (permutation.mk [10, 20, 30]).s.length <
        ((permutation.mk [10, 20, 30]).s.length - 1).factorial ∧
      5 / (permutation.mk [10, 20, 30]).s.length <
        (permutation.mk ((permutation.mk [10, 20, 30]).s.eraseIdx
          (5 % (permutation.mk [10, 20, 30]).s.length))).capacity ∧
      (permutation.mk ((permutation.mk [10, 20, 30]).s.eraseIdx
        (5 % (permutation.mk [10, 20, 30]).s.length))).get_n
          (5 / (permutation.mk [10, 20, 30]).s.length) = .ok r ∧
      (permutation.mk [10, 20, 30]).get_n 5 = .ok (x :: r)) ∧
    ((permutation.mk [10, 20, 30]).s.length ≤ 20 →
      (permutation.mk [10, 20, 30]).capacity =
        (permutation.mk [10, 20, 30]).s.length.factorial)) :=
  ⟨by decide, by decide, by decide,
    get_n_step (permutation.mk [10, 20, 30]) (by decide) (by decide) 5 (by decide)⟩

/-! ## The last index -/

theorem factorial_pred_mod_div (k : Nat) :
    ((k + 1).factorial - 1) % (k + 1) = k ∧ ((k + 1).factorial - 1) / (k + 1) = k.factorial - 1 := by
  obtain ⟨m, hm⟩ : ∃ m, k.factorial = m + 1 := ⟨k.factorial - 1, by
    have := Nat.factorial_pos k; omega⟩
  have h : (k + 1).factorial - 1 = k + (k + 1) * m := by
    rw [Nat.factorial_succ, hm, Nat.mul_add, Nat.mul_one]
    omega
  rw [h, hm]
  constructor
  · rw [Nat.add_mul_mod_self_left, Nat.mod_eq_of_lt (by omega)]
  · rw [Nat.add_mul_div_left _ _ (by omega), Nat.div_eq_of_lt (by omega)]
    omega

theorem decodeAux_last_index {T : Type} (k : Nat) :
    ∀ (base : List T), base.length = k → decodeAux k base (k.factorial - 1) = base.reverse := by
  induction k with
  | zero =>
    intro base h
    rw [List.length_eq_zero] at h
    simp [decodeAux, h]
  | succ k ih =>
    intro base h
    rcases List.eq_nil_or_concat base with hb | ⟨l, a, hb⟩
    · simp [hb] at h
    · rw [List.concat_eq_append] at hb
      subst hb
      have hl : l.length = k := by simpa using h
      obtain ⟨hmod, hdiv⟩ := factorial_pred_mod_div k
      have hlen : (l ++ [a]).length = k + 1 := h
      have hpos : ((k + 1).factorial - 1) % (l ++ [a]).length < (l ++ [a]).length := by
        rw [hlen, hmod]; omega
      rw [decodeAux_succ k (l ++ [a]) _ hpos]
      simp only [hlen, hmod, hdiv]
      have h1 : (l ++ [a])[k]? = some a := by
        rw [← hl]; simp
      have h2 : (l ++ [a]).eraseIdx k = l := by
        rw [List.eraseIdx_append_of_length_le (by omega)]
        simp [hl]
      have h3 : (l ++ [a])[k] = a := by
        have hk : k < (l ++ [a]).length := by omega
        have := List.getElem?_eq_getElem hk
        rw [h1] at this
        exact (Option.some.inj this).symm
      rw [h2, ih l hl, List.reverse_append]
      simp [h3]

theorem decode_last_index {T : Type} (base : List T) :
    decode base (base.length.factorial - 1) = base.reverse :=
  decodeAux_last_index base.length base rfl

/-- C18, claim as stated, refuted: for the set `{0, ..., 20}` (`N = 21`) the index
`21! - 1` is not a valid index, `get_n` stops on the range assertion there, and the
last valid index, `capacity() - 1 = 14197454024290336767`, gives an order that is
not the descending one. -/
theorem get_n_last_index_counterexample :
    List.Sorted (· < ·) (List.range 21) ∧ 1 ≤ (List.range 21).length ∧
    (permutation.mk (List.range 21)).get_n (Nat.factorial (List.range 21).length - 1) =
      .error .assertion ∧
    (permutation.mk (List.range 21)).capacity - 1 = 14197454024290336767 ∧
    (permutation.mk (List.range 21)).get_n 14197454024290336767 =
      .ok [9, 19, 18, 6, 20, 7, 11, 10, 8, 1, 12, 3, 5, 14, 0, 13, 16, 15, 4, 2, 17] ∧
    (permutation.mk (List.range 21)).get_n 14197454024290336768 = .error .assertion ∧
    [9, 19, 18, 6, 20, 7, 11, 10, 8, 1, 12, 3, 5, 14, 0, 13, 16, 15, 4, 2, 17] ≠
      (List.range 21).reverse := by
  refine ⟨List.sorted_lt_range 21, by decide, permutation_get_n_fail _ _ (by decide),
    by decide, ?_, permutation_get_n_fail _ _ (by decide), by decide⟩
  rw [permutation_get_n_ok _ _ (by decide)]
  rfl

/-- C18, amended: for every set `S` of `N ≤ 20` distinct values (in particular for
`1 ≤ N ≤ 20`), the last valid index gives the reversed canonical order: `N! - 1` is below
`capacity()`, every larger index is rejected, and `get_n(N! - 1)` is the elements
of `S` in descending order (e.g. `{'a','b','c'}`, `n = 5` gives `['c','b','a']`);
the enumeration runs from ascending order at `n = 0` to descending order at
`n = N! - 1` and is not lexicographic in between (for `{'a','b','c'}` index 1 gives
`['b','a','c']` and index 3 the lexicographically smaller `['a','c','b']`). -/
theorem get_n_last_index {T : Type} [LinearOrder T] (p : permutation T)
    (hs : p.s.Sorted (· < ·)) (hN : p.s.length ≤ 20) :
    (p.s.length.factorial - 1 < p.capacity ∧
      (∀ n, p.s.length.factorial - 1 < n → p.get_n n = .error .assertion) ∧
      p.get_n (p.s.length.factorial - 1) = .ok p.s.reverse ∧
      List.Sorted (· > ·) p.s.reverse ∧
      p.get_n 0 = .ok p.s) ∧
    ((permutation.mk ['a', 'b', 'c']).get_n 5 = .ok ['c', 'b', 'a'] ∧
      (permutation.mk ['a', 'b', 'c']).get_n 1 = .ok ['b', 'a', 'c'] ∧
      (permutation.mk ['a', 'b', 'c']).get_n 3 = .ok ['a', 'c', 'b'] ∧
      ['a', 'c', 'b'] < ['b', 'a', 'c']) := by
  have hcap : p.capacity = p.s.length.factorial := strong_size_t_of_le_twenty _ hN
  have hpos := Nat.factorial_pos p.s.length
  have hlt : p.s.length.factorial - 1 < p.capacity := by omega
  refine ⟨⟨hlt, fun n hn => permutation_get_n_fail p n (by omega), ?_, ?_, ?_⟩,
    rfl, rfl, rfl, by decide⟩
  · rw [permutation_get_n_ok p _ hlt, decode_last_index]
  · exact List.pairwise_reverse.mpr hs
  · rw [permutation_get_n_ok p 0 (by omega), decode_zero]

theorem get_n_last_index_witness :
    List.Sorted (· < ·) [10, 20, 30, 40] ∧
    (permutation.mk [10, 20, 30, 40]).s.length ≤ 20 ∧
    (((permutation.mk [10, 20, 30, 40]).s.length.factorial - 1 <
        (permutation.mk [10, 20, 30, 40]).capacity ∧
      (∀ n, (permutation.mk [10, 20, 30, 40]).s.length.factorial - 1 < n →
        (permutation.mk [10, 20, 30, 40]).get_n n = .error .assertion) ∧
      (permutation.mk [10, 20, 30, 40]).get_n
          ((permutation.mk [10, 20, 30, 40]).s.length.factorial - 1) =
        .ok (permutation.mk [10, 20, 30, 40]).s.reverse ∧
      List.Sorted (· > ·) (permutation.mk [10, 20, 30, 40]).s.reverse ∧
      (permutation.mk [10, 20, 30, 40]).get_n 0 = .ok (permutation.mk [10, 20, 30, 40]).s) ∧
    ((permutation.mk ['a', 'b', 'c']).get_n 5 = .ok ['c', 'b', 'a'] ∧
      (permutation.mk ['a', 'b', 'c']).get_n 1 = .ok ['b', 'a', 'c'] ∧
      (permutation.mk ['a', 'b', 'c']).get_n 3 = .ok ['a', 'c', 'b'] ∧
      ['a', 'c', 'b'] < ['b', 'a', 'c'])) :=
  ⟨by decide, by decide,
    get_n_last_index (permutation.mk [10, 20, 30, 40]) (by decide) (by decide)⟩

end toost
